import Mathlib

/-!
Verification of the gate-level arithmetic circuit synthesizer (src/circuit.js).

The circuit is an append-only list of gates; a gate is stored in the source as a
JavaScript array `[name, ...args]`, so here a gate is a record of its name and
its operand list.  A JavaScript value sitting in a compressor column or in a
gate operand slot is either a wire index (a number) or `undefined`; we embed
such values as `Option Nat`, with `none` playing the role of `undefined`.
-/

structure Gate where
  name : String
  args : List (Option Nat)
deriving DecidableEq

abbrev Circuit := List Gate

/-- Source `count_xaig`: counts gates `g` with `g.length >= 3`, i.e. the JS array
`[name, ...args]` has at least two operand entries. -/
def count_xaig (C : Circuit) : Nat :=
  (C.filter (fun g => 2 ≤ g.args.length)).length

/-- Source `count_aig`: over the same gates, an `xor` costs 3, anything else 1. -/
def count_aig (C : Circuit) : Nat :=
  ((C.filter (fun g => 2 ≤ g.args.length)).map
    (fun g => if g.name = "xor" then 3 else 1)).sum

/-- Source `gate`: pushes `[name, ...args]` and returns the new gate's index. -/
def gate (C : Circuit) (name : String) (args : List (Option Nat)) : Circuit × Nat :=
  (C ++ [⟨name, args⟩], C.length)

/-- Source `halfadder`: `[gate(C,'xor',x,y), gate(C,'and',x,y)]`. -/
def halfadder (C : Circuit) (x y : Option Nat) : Circuit × Nat × Nat :=
  let g1 := gate C "xor" [x, y]
  let g2 := gate g1.1 "and" [x, y]
  (g2.1, g1.2, g2.2)

/-- Source `fulladder`: two chained half adders, carry out is `or(c1, c2)`. -/
def fulladder (C : Circuit) (x y z : Option Nat) : Circuit × Nat × Nat :=
  let h1 := halfadder C x y
  let h2 := halfadder h1.1 (some h1.2.1) z
  let g := gate h2.1 "or" [some h1.2.2, some h2.2.2]
  (g.1, h2.2.1, g.2)

/-- Carry propagation step of `compress`: `bits.length === 1 ? bits.push([c]) :
bits[1].push(c)`, seen from the tail `rest` of the column list. -/
def addCarry (rest : List (List (Option Nat))) (c : Option Nat) :
    List (List (Option Nat)) :=
  match rest with
  | [] => [[c]]
  | col1 :: rs => (col1 ++ [c]) :: rs

/-- Measure for the `compress` loop: an empty column is about to grow by an
undefined sum and carry, so it is charged in advance. -/
def colMeasure (col : List (Option Nat)) : Nat :=
  col.length + (if col.length = 0 then 3 else 0)

/-- Source `compress`: reduce the lowest column with a half/full adder, promote
the carry one weight up, emit a column once it holds a single wire.  When the
lowest column is empty, no branch assigns `s`/`c`, so the JS code pushes
`undefined` (here `none`) into the column and into the carry slot. -/
def compress (C : Circuit) (bits : List (List (Option Nat))) :
    Circuit × List (Option Nat) :=
  match bits with
  | [] => (C, [])
  | [w] :: rest =>
    let r := compress C rest
    (r.1, w :: r.2)
  | (x :: y :: z :: more) :: rest =>
    let p := fulladder C x y z
    compress p.1 ((more ++ [some p.2.1]) :: addCarry rest (some p.2.2))
  | [x, y] :: rest =>
    let p := halfadder C x y
    compress p.1 ([some p.2.1] :: addCarry rest (some p.2.2))
  | [] :: rest =>
    compress C ([(none : Option Nat)] :: addCarry rest none)
termination_by 3 * ((bits.map colMeasure).sum) + min ((bits.headD []).length) 2
decreasing_by
  · cases rest with
    | nil => simp [colMeasure]
    | cons c1 rs =>
      simp only [List.map_cons, List.sum_cons, List.headD_cons, colMeasure]
      cases c1 <;> simp <;> omega
  · cases rest with
    | nil => simp [addCarry, colMeasure]; omega
    | cons c1 rs =>
      simp only [addCarry, List.map_cons, List.sum_cons, List.headD_cons, colMeasure]
      cases c1 <;> simp <;> omega
  · cases rest with
    | nil => simp [addCarry, colMeasure]
    | cons c1 rs =>
      simp only [addCarry, List.map_cons, List.sum_cons, List.headD_cons, colMeasure]
      cases c1 <;> simp <;> omega
  · cases rest with
    | nil => simp [addCarry, colMeasure]
    | cons c1 rs =>
      simp only [addCarry, List.map_cons, List.sum_cons, List.headD_cons, colMeasure]
      cases c1 <;> simp <;> omega

/-- Source `inputs`: appends `n` zero-operand gates labeled `name0..name(n-1)`
and returns their indices in order. -/
def inputs (C : Circuit) (name : String) (n : Nat) : Circuit × List Nat :=
  (List.range n).foldl
    (fun acc i =>
      let g := gate acc.1 (name ++ toString i) []
      (g.1, acc.2 ++ [g.2]))
    (C, [])

/-- Source `adder`: throws when the operand lists differ in length (modelled as
`none` with the circuit untouched), otherwise compresses the zipped columns. -/
def adder (C : Circuit) (bits_a bits_b : List Nat) :
    Circuit × Option (List (Option Nat)) :=
  if bits_a.length = bits_b.length then
    let r := compress C ((bits_a.zip bits_b).map (fun p => [some p.1, some p.2]))
    (r.1, some r.2)
  else
    (C, none)

/-- Source `popcount`: compress the single weight-0 column holding every bit. -/
def popcount (C : Circuit) (bits : List Nat) : Circuit × List (Option Nat) :=
  compress C [bits.map some]

/-- Name of the gate at index `a`, as read by `C[a][0]` in the source (the
source would throw on an out-of-range index; that case is unreachable in the
claims considered here). -/
def nameAt (C : Circuit) (a : Nat) : String :=
  (C[a]?.map Gate.name).getD ""

/-- Loop state of `multiplier`: the circuit, the two local bit arrays (the
source copies the caller's arrays into them before the loop), and the columns. -/
structure MulSt where
  C : Circuit
  la : List Nat
  lb : List Nat
  land : List (List Nat)

/-- Body of the partial-product loop: read `a = la[i]`, `b = lb[j]`, append a
fan-out duplicate of each (`gate(C, C[a][0], a)`), overwrite the local array
entries with the duplicates, and push their AND into column `d`. -/
def mulBody (st : MulSt) (d i : Nat) : MulSt :=
  let j := d - i
  let a := st.la.getD i 0
  let b := st.lb.getD j 0
  let g1 := gate st.C (nameAt st.C a) [some a]
  let la1 := st.la.set i g1.2
  let g2 := gate g1.1 (nameAt g1.1 b) [some b]
  let lb1 := st.lb.set j g2.2
  let g3 := gate g2.1 "and" [some g1.2, some g2.2]
  ⟨g3.1, la1, lb1, st.land.set d ((st.land.getD d []) ++ [g3.2])⟩

/-- Index range of the inner loop: `start_i = max(0, d - nb + 1)` (natural
subtraction), `end_i = min(na, d + 1)`. -/
def innerRange (na nb d : Nat) : List Nat :=
  List.range' (d + 1 - nb) (min na (d + 1) - (d + 1 - nb))

/-- The two nested `for` loops of `multiplier`. -/
def mulLoop (st : MulSt) (na nb : Nat) : MulSt :=
  (List.range (na + nb - 1)).foldl
    (fun s d => (innerRange na nb d).foldl (fun s2 i => mulBody s2 d i) s) st

/-- Source `multiplier`: local copies of the operand arrays feed the
partial-product loop over `na + nb - 1` diagonal columns, then everything is
compressed together. -/
def multiplier (C : Circuit) (bits_a bits_b : List Nat) :
    Circuit × List (Option Nat) :=
  let st := mulLoop ⟨C, bits_a, bits_b,
    List.replicate (bits_a.length + bits_b.length - 1) []⟩ bits_a.length bits_b.length
  compress st.C (st.land.map (List.map some))

/-- Body of the partial-product loop in store semantics: the local arrays are
slots `la`, `lb` of a store of array objects, read and written through the
store exactly as the source reads and writes `bits_a` / `bits_b`. -/
def mulBodyStore (la lb : Nat) (st : Circuit × List (List Nat) × List (List Nat))
    (d i : Nat) : Circuit × List (List Nat) × List (List Nat) :=
  let j := d - i
  let a := (st.2.1.getD la []).getD i 0
  let b := (st.2.1.getD lb []).getD j 0
  let g1 := gate st.1 (nameAt st.1 a) [some a]
  let s1 := st.2.1.set la ((st.2.1.getD la []).set i g1.2)
  let g2 := gate g1.1 (nameAt g1.1 b) [some b]
  let s2 := s1.set lb ((s1.getD lb []).set j g2.2)
  let g3 := gate g2.1 "and" [some g1.2, some g2.2]
  (g3.1, s2, st.2.2.set d ((st.2.2.getD d []) ++ [g3.2]))

/-- Store semantics of `multiplier`: arrays are heap objects referenced by store
index; the caller passes references `ra`, `rb`.  Lines 138-139 of the source
(`bits_a = [...bits_a]`) append fresh copies to the store and rebind the local
references to them; the loop then works through those local references. -/
def multiplierStore (C : Circuit) (store : List (List Nat)) (ra rb : Nat) :
    (Circuit × List (Option Nat)) × List (List Nat) :=
  let bitsA := store.getD ra []
  let bitsB := store.getD rb []
  let na := bitsA.length
  let nb := bitsB.length
  let la := store.length
  let lb := store.length + 1
  let store1 := store ++ [bitsA, bitsB]
  let fin := (List.range (na + nb - 1)).foldl
    (fun s d => (innerRange na nb d).foldl (fun s2 i => mulBodyStore la lb s2 d i) s)
    (C, store1, List.replicate (na + nb - 1) [])
  (compress fin.1 (fin.2.2.map (List.map some)), fin.2.1)

/-- Carry step of `compress` on column lengths only. -/
def addCarryLen (rest : List Nat) : List Nat :=
  match rest with
  | [] => [1]
  | k :: rs => (k + 1) :: rs

/-- The `compress` loop on column lengths only: the circuit structure (and in
particular how many output bits are produced) depends only on the column
populations, never on which wires sit in the columns. -/
def shapeLen : List Nat → Nat
  | [] => 0
  | 1 :: rest => 1 + shapeLen rest
  | (n + 3) :: rest => shapeLen ((n + 1) :: addCarryLen rest)
  | 2 :: rest => shapeLen (1 :: addCarryLen rest)
  | 0 :: rest => shapeLen (1 :: addCarryLen rest)
termination_by l => 3 * ((l.map (fun k => k + if k = 0 then 3 else 0)).sum) + min (l.headD 0) 2
decreasing_by
  · cases rest with
    | nil => simp
    | cons k rs =>
      simp only [List.map_cons, List.sum_cons, List.headD_cons]
      rcases Nat.eq_zero_or_pos k with h | h <;> simp [h] <;> omega
  · cases rest with
    | nil => simp [addCarryLen]; omega
    | cons k rs =>
      simp only [addCarryLen, List.map_cons, List.sum_cons, List.headD_cons]
      rcases Nat.eq_zero_or_pos k with h | h <;> simp [h] <;> omega
  · cases rest with
    | nil => simp [addCarryLen]
    | cons k rs =>
      simp only [addCarryLen, List.map_cons, List.sum_cons, List.headD_cons]
      rcases Nat.eq_zero_or_pos k with h | h <;> simp [h] <;> omega
  · cases rest with
    | nil => simp [addCarryLen]
    | cons k rs =>
      simp only [addCarryLen, List.map_cons, List.sum_cons, List.headD_cons]
      rcases Nat.eq_zero_or_pos k with h | h <;> simp [h] <;> omega

/-- Modelled from the spec: the repository itself contains no evaluator, so the
gate semantics is taken from the specification's numeric-semantics paragraphs:
an input (zero-operand) gate takes the Boolean the assignment gives its wire, a
one-operand fan-out duplicate is an alias of its source wire, and a two-operand
gate applies its operator (`and`/`or`/`xor`) to its operand values.  The fuel
argument only makes the recursion structural; the guards `a < i` reflect the
invariant that operands reference strictly earlier gates (anything else has no
defined value). -/
def evalFuel (C : Circuit) (env : Nat → Bool) : Nat → Nat → Option Bool
  | 0, _ => none
  | fuel + 1, i =>
    match (C[i]? : Option Gate) with
    | none => none
    | some g =>
      match g.args with
      | [] => some (env i)
      | [some a] => if a < i then evalFuel C env fuel a else none
      | [some a, some b] =>
        if a < i ∧ b < i then
          match evalFuel C env fuel a, evalFuel C env fuel b with
          | some va, some vb =>
            if g.name = "and" then some (va && vb)
            else if g.name = "or" then some (va || vb)
            else if g.name = "xor" then some (xor va vb)
            else none
          | _, _ => none
        else none
      | _ => none

/-- Value of the wire `i` under the input assignment `env` (see `evalFuel`). -/
def evalWire (C : Circuit) (env : Nat → Bool) (i : Nat) : Option Bool :=
  evalFuel C env (i + 1) i

/-- Sum of the Boolean values of the wires of one column (`none` when some
entry is undefined or has no defined value). -/
def colVal (C : Circuit) (env : Nat → Bool) : List (Option Nat) → Option Nat
  | [] => some 0
  | w :: ws => do
    let i ← w
    let b ← evalWire C env i
    let v ← colVal C env ws
    pure (b.toNat + v)

/-- Weighted value of a column list: the column at index `w` has weight `2^w`. -/
def colsVal (C : Circuit) (env : Nat → Bool) : List (List (Option Nat)) → Option Nat
  | [] => some 0
  | col :: rest => do
    let a ← colVal C env col
    let v ← colsVal C env rest
    pure (a + 2 * v)

/-- Integer value of an LSB-first output bit sequence: bit `i` has weight `2^i`. -/
def bitsVal (C : Circuit) (env : Nat → Bool) : List (Option Nat) → Option Nat
  | [] => some 0
  | w :: ws => do
    let i ← w
    let b ← evalWire C env i
    let v ← bitsVal C env ws
    pure (b.toNat + 2 * v)

/-- Unsigned integer encoded by an LSB-first list of Booleans. -/
def bitsToNat : List Bool → Nat
  | [] => 0
  | b :: r => b.toNat + 2 * bitsToNat r

/-- `C'` is `C` with zero or more gates appended. -/
def Extends (C C' : Circuit) : Prop := ∃ D, C' = C ++ D

/-- Acyclicity: every operand of the gate at index `i` is a wire index `< i`. -/
def CircOk (C : Circuit) : Prop :=
  ∀ (i : Nat) (g : Gate), C[i]? = some g → ∀ v ∈ g.args, ∃ k, v = some k ∧ k < i

/-- Netlists produced by a sequence of calls to the public operators, starting
from the empty netlist, with operand wires drawn from the netlist so far. -/
inductive Built : Circuit → Prop
  | empty : Built []
  | inputs {C : Circuit} (name : String) (n : Nat) :
      Built C → Built (inputs C name n).1
  | adder {C : Circuit} (ba bb : List Nat) : Built C →
      (∀ w ∈ ba, w < C.length) → (∀ w ∈ bb, w < C.length) →
      Built (adder C ba bb).1
  | popcount {C : Circuit} (bits : List Nat) : Built C →
      (∀ w ∈ bits, w < C.length) → Built (popcount C bits).1
  | multiplier {C : Circuit} (ba bb : List Nat) : Built C →
      (∀ w ∈ ba, w < C.length) → (∀ w ∈ bb, w < C.length) →
      Built (multiplier C ba bb).1

/-- Shape of the gates appended by the partial-product loop: for each pair, two
one-operand fan-out duplicates immediately followed by the AND of exactly those
two duplicates. -/
inductive DupTriples : Nat → List Gate → Prop
  | nil (b : Nat) : DupTriples b []
  | cons (b : Nat) (g1 g2 : Gate) (rest : List Gate) :
      g1.args.length = 1 → g2.args.length = 1 →
      DupTriples (b + 3) rest →
      DupTriples b (g1 :: g2 :: ⟨"and", [some b, some (b + 1)]⟩ :: rest)

/-- Loop invariant for the partial-product loop, structural part. -/
def MulInv (C0 : Circuit) (na nb : Nat) (st : MulSt) : Prop :=
  CircOk st.C ∧ Extends C0 st.C ∧
  (∀ w ∈ st.la, w < st.C.length) ∧ (∀ w ∈ st.lb, w < st.C.length) ∧
  (∀ col ∈ st.land, ∀ w ∈ col, w < st.C.length) ∧
  st.la.length = na ∧ st.lb.length = nb ∧ st.land.length = na + nb - 1

/-- Value invariant of the partial-product loop: the local arrays still encode
va and vb wire-wise, the accumulated columns have weighted value S, the column
count is fixed, and the gates appended since index `base` form dup-dup-AND
triples. -/
def LoopVal (env : Nat → Bool) (va vb : List Bool) (base : Nat) (st : MulSt)
    (S : Nat) : Prop :=
  List.Forall₂ (fun w v => evalWire st.C env w = some v) st.la va ∧
  List.Forall₂ (fun w v => evalWire st.C env w = some v) st.lb vb ∧
  colsVal st.C env (st.land.map (List.map some)) = some S ∧
  st.land.length = va.length + vb.length - 1 ∧
  base ≤ st.C.length ∧
  DupTriples base (st.C.drop base)

theorem Extends.rfl {C : Circuit} : Extends C C := ⟨[], by simp⟩

theorem Extends.trans {a b c : Circuit} (h1 : Extends a b) (h2 : Extends b c) :
    Extends a c := by
  obtain ⟨d1, rfl⟩ := h1
  obtain ⟨d2, rfl⟩ := h2
  exact ⟨d1 ++ d2, by simp⟩

theorem extends_append (C : Circuit) (D : List Gate) : Extends C (C ++ D) := ⟨D, by simp⟩

theorem Extends.length_le {C C' : Circuit} (h : Extends C C') :
    C.length ≤ C'.length := by
  obtain ⟨d, rfl⟩ := h
  simp

theorem Extends.getElem? {C C' : Circuit} (h : Extends C C') {i : Nat}
    (hi : i < C.length) : C'[i]? = C[i]? := by
  obtain ⟨d, rfl⟩ := h
  exact List.getElem?_append_left hi

theorem getElem?_append_add (C : Circuit) (L : List Gate) (k : Nat) :
    (C ++ L)[C.length + k]? = L[k]? := by
  rw [List.getElem?_append_right (by omega)]
  congr 1
  omega

theorem evalWire_isSome_lt {C : Circuit} {env : Nat → Bool} {i : Nat} {v : Bool}
    (h : evalWire C env i = some v) : i < C.length := by
  rcases Nat.lt_or_ge i C.length with hl | hl
  · exact hl
  · exfalso
    have hn : C[i]? = none := by
      rw [List.getElem?_eq_none_iff]
      omega
    simp only [evalWire, evalFuel, hn] at h
    exact Option.noConfusion h

theorem evalFuel_eq (C : Circuit) (env : Nat → Bool) :
    ∀ i fuel, i ≤ fuel → evalFuel C env (fuel + 1) i = evalWire C env i := by
  intro i
  induction i using Nat.strong_induction_on with
  | _ i IH =>
    intro fuel hf
    show evalFuel C env (fuel + 1) i = evalFuel C env (i + 1) i
    simp only [evalFuel]
    cases hg : (C[i]? : Option Gate) with
    | none => rfl
    | some g =>
      obtain ⟨nm, args⟩ := g
      rcases args with _ | ⟨_ | a, args⟩
      · rfl
      · rcases args with _ | ⟨v2, args⟩ <;> rfl
      · rcases args with _ | ⟨_ | b, args⟩
        · -- one operand
          simp only
          by_cases ha : a < i
          · have h1 : evalFuel C env fuel a = evalWire C env a := by
              obtain ⟨f, rfl⟩ : ∃ f, fuel = f + 1 := ⟨fuel - 1, by omega⟩
              exact IH a ha f (by omega)
            have h2 : evalFuel C env i a = evalWire C env a := by
              obtain ⟨k, rfl⟩ : ∃ k, i = k + 1 := ⟨i - 1, by omega⟩
              exact IH a ha k (by omega)
            simp only [if_pos ha, h1, h2]
          · simp only [if_neg ha]
        · rcases args with _ | ⟨v3, args⟩
          · rfl
          · rfl
        · rcases args with _ | ⟨v3, args⟩
          · -- two operands
            simp only
            by_cases hab : a < i ∧ b < i
            · have h1 : evalFuel C env fuel a = evalWire C env a := by
                obtain ⟨f, rfl⟩ : ∃ f, fuel = f + 1 := ⟨fuel - 1, by omega⟩
                exact IH a hab.1 f (by omega)
              have h2 : evalFuel C env i a = evalWire C env a := by
                obtain ⟨k, rfl⟩ : ∃ k, i = k + 1 := ⟨i - 1, by omega⟩
                exact IH a hab.1 k (by omega)
              have h3 : evalFuel C env fuel b = evalWire C env b := by
                obtain ⟨f, rfl⟩ : ∃ f, fuel = f + 1 := ⟨fuel - 1, by omega⟩
                exact IH b hab.2 f (by omega)
              have h4 : evalFuel C env i b = evalWire C env b := by
                obtain ⟨k, rfl⟩ : ∃ k, i = k + 1 := ⟨i - 1, by omega⟩
                exact IH b hab.2 k (by omega)
              simp only [if_pos hab, h1, h2, h3, h4]
            · simp only [if_neg hab]
          · rfl

theorem evalFuel_ext {C C' : Circuit} (h : Extends C C') (env : Nat → Bool) :
    ∀ fuel i, i < C.length → evalFuel C' env fuel i = evalFuel C env fuel i := by
  intro fuel
  induction fuel with
  | zero => intro i _; rfl
  | succ f IH =>
    intro i hi
    simp only [evalFuel, Extends.getElem? h hi]
    cases hg : (C[i]? : Option Gate) with
    | none => rfl
    | some g =>
      obtain ⟨nm, args⟩ := g
      rcases args with _ | ⟨_ | a, args⟩
      · rfl
      · rcases args with _ | ⟨v2, args⟩ <;> rfl
      · rcases args with _ | ⟨_ | b, args⟩
        · simp only
          by_cases ha : a < i
          · simp only [if_pos ha, IH a (by omega)]
          · simp only [if_neg ha]
        · rcases args with _ | ⟨v3, args⟩ <;> rfl
        · rcases args with _ | ⟨v3, args⟩
          · simp only
            by_cases hab : a < i ∧ b < i
            · simp only [if_pos hab, IH a (by omega), IH b (by omega)]
            · simp only [if_neg hab]
          · rfl

theorem evalWire_ext {C C' : Circuit} (h : Extends C C') (env : Nat → Bool)
    {i : Nat} (hi : i < C.length) : evalWire C' env i = evalWire C env i :=
  evalFuel_ext h env (i + 1) i hi

theorem evalWire_input {C : Circuit} {env : Nat → Bool} {i : Nat} {nm : String}
    (hg : C[i]? = some ⟨nm, []⟩) : evalWire C env i = some (env i) := by
  simp only [evalWire, evalFuel, hg]

theorem evalWire_one {C : Circuit} {env : Nat → Bool} {i a : Nat} {nm : String}
    {v : Bool} (hg : C[i]? = some ⟨nm, [some a]⟩) (ha : a < i)
    (hv : evalWire C env a = some v) : evalWire C env i = some v := by
  simp only [evalWire, evalFuel, hg]
  have h1 : evalFuel C env i a = evalWire C env a := by
    obtain ⟨k, rfl⟩ : ∃ k, i = k + 1 := ⟨i - 1, by omega⟩
    exact evalFuel_eq C env a k (by omega)
  simp only [if_pos ha, h1, hv]

theorem evalWire_two {C : Circuit} {env : Nat → Bool} {i a b : Nat} {nm : String}
    {va vb : Bool} (hg : C[i]? = some ⟨nm, [some a, some b]⟩)
    (ha : a < i) (hb : b < i)
    (hva : evalWire C env a = some va) (hvb : evalWire C env b = some vb) :
    evalWire C env i =
      (if nm = "and" then some (va && vb)
       else if nm = "or" then some (va || vb)
       else if nm = "xor" then some (xor va vb)
       else none) := by
  simp only [evalWire, evalFuel, hg]
  have h1 : evalFuel C env i a = evalWire C env a := by
    obtain ⟨k, rfl⟩ : ∃ k, i = k + 1 := ⟨i - 1, by omega⟩
    exact evalFuel_eq C env a k (by omega)
  have h2 : evalFuel C env i b = evalWire C env b := by
    obtain ⟨k, rfl⟩ : ∃ k, i = k + 1 := ⟨i - 1, by omega⟩
    exact evalFuel_eq C env b k (by omega)
  simp only [if_pos (And.intro ha hb), h1, h2, hva, hvb]

theorem string_neq_xor_and : ("xor" : String) ≠ "and" := by decide

theorem string_neq_xor_or : ("xor" : String) ≠ "or" := by decide

theorem string_neq_or_and : ("or" : String) ≠ "and" := by decide

theorem halfadder_spec (C : Circuit) (env : Nat → Bool) {a b : Nat} {va vb : Bool}
    (hva : evalWire C env a = some va) (hvb : evalWire C env b = some vb) :
    (halfadder C (some a) (some b)).1 =
      C ++ [⟨"xor", [some a, some b]⟩, ⟨"and", [some a, some b]⟩] ∧
    (halfadder C (some a) (some b)).2.1 = C.length ∧
    (halfadder C (some a) (some b)).2.2 = C.length + 1 ∧
    evalWire (halfadder C (some a) (some b)).1 env (halfadder C (some a) (some b)).2.1
      = some (xor va vb) ∧
    evalWire (halfadder C (some a) (some b)).1 env (halfadder C (some a) (some b)).2.2
      = some (va && vb) := by
  have ha : a < C.length := evalWire_isSome_lt hva
  have hb : b < C.length := evalWire_isSome_lt hvb
  have hC : (halfadder C (some a) (some b)).1 =
      C ++ [⟨"xor", [some a, some b]⟩, ⟨"and", [some a, some b]⟩] := by
    simp [halfadder, gate]
  have hs : (halfadder C (some a) (some b)).2.1 = C.length := by
    simp [halfadder, gate]
  have hc : (halfadder C (some a) (some b)).2.2 = C.length + 1 := by
    simp [halfadder, gate]
  set L := C ++ [(⟨"xor", [some a, some b]⟩ : Gate), ⟨"and", [some a, some b]⟩] with hL
  have hext : Extends C L := extends_append C _
  have hva2 : evalWire L env a = some va := by rw [evalWire_ext hext env ha]; exact hva
  have hvb2 : evalWire L env b = some vb := by rw [evalWire_ext hext env hb]; exact hvb
  have hg0 : L[C.length]? = some ⟨"xor", [some a, some b]⟩ := by
    have h := getElem?_append_add C
      [(⟨"xor", [some a, some b]⟩ : Gate), ⟨"and", [some a, some b]⟩] 0
    rw [Nat.add_zero] at h
    rw [h]
    simp
  have hg1 : L[C.length + 1]? = some ⟨"and", [some a, some b]⟩ := by
    have h := getElem?_append_add C
      [(⟨"xor", [some a, some b]⟩ : Gate), ⟨"and", [some a, some b]⟩] 1
    rw [h]
    simp
  refine ⟨hC, hs, hc, ?_, ?_⟩
  · rw [hC, hs]
    rw [evalWire_two hg0 ha hb hva2 hvb2]
    rw [if_neg string_neq_xor_and, if_neg string_neq_xor_or, if_pos rfl]
  · rw [hC, hc]
    rw [evalWire_two hg1 (by omega) (by omega) hva2 hvb2]
    rw [if_pos rfl]

theorem fulladder_spec (C : Circuit) (env : Nat → Bool) {a b c : Nat} {va vb vc : Bool}
    (hva : evalWire C env a = some va) (hvb : evalWire C env b = some vb)
    (hvc : evalWire C env c = some vc) :
    (fulladder C (some a) (some b) (some c)).1 =
      C ++ [⟨"xor", [some a, some b]⟩, ⟨"and", [some a, some b]⟩,
            ⟨"xor", [some C.length, some c]⟩, ⟨"and", [some C.length, some c]⟩,
            ⟨"or", [some (C.length + 1), some (C.length + 3)]⟩] ∧
    (fulladder C (some a) (some b) (some c)).2.1 = C.length + 2 ∧
    (fulladder C (some a) (some b) (some c)).2.2 = C.length + 4 ∧
    evalWire (fulladder C (some a) (some b) (some c)).1 env (C.length + 2)
      = some (xor (xor va vb) vc) ∧
    evalWire (fulladder C (some a) (some b) (some c)).1 env (C.length + 4)
      = some ((va && vb) || (xor va vb && vc)) := by
  have ha : a < C.length := evalWire_isSome_lt hva
  have hb : b < C.length := evalWire_isSome_lt hvb
  have hc : c < C.length := evalWire_isSome_lt hvc
  have hC : (fulladder C (some a) (some b) (some c)).1 =
      C ++ [⟨"xor", [some a, some b]⟩, ⟨"and", [some a, some b]⟩,
            ⟨"xor", [some C.length, some c]⟩, ⟨"and", [some C.length, some c]⟩,
            ⟨"or", [some (C.length + 1), some (C.length + 3)]⟩] := by
    simp [fulladder, halfadder, gate]
  have hs : (fulladder C (some a) (some b) (some c)).2.1 = C.length + 2 := by
    simp [fulladder, halfadder, gate]
  have hco : (fulladder C (some a) (some b) (some c)).2.2 = C.length + 4 := by
    simp [fulladder, halfadder, gate]
  set G : List Gate :=
    [⟨"xor", [some a, some b]⟩, ⟨"and", [some a, some b]⟩,
     ⟨"xor", [some C.length, some c]⟩, ⟨"and", [some C.length, some c]⟩,
     ⟨"or", [some (C.length + 1), some (C.length + 3)]⟩] with hG
  have hext : Extends C (C ++ G) := extends_append C G
  have hva5 : evalWire (C ++ G) env a = some va := by rw [evalWire_ext hext env ha]; exact hva
  have hvb5 : evalWire (C ++ G) env b = some vb := by rw [evalWire_ext hext env hb]; exact hvb
  have hvc5 : evalWire (C ++ G) env c = some vc := by rw [evalWire_ext hext env hc]; exact hvc
  have hg0 : (C ++ G)[C.length]? = some ⟨"xor", [some a, some b]⟩ := by
    have h := getElem?_append_add C G 0
    rw [Nat.add_zero] at h
    rw [h, hG]
    simp
  have hg1 : (C ++ G)[C.length + 1]? = some ⟨"and", [some a, some b]⟩ := by
    have h := getElem?_append_add C G 1
    rw [h, hG]
    simp
  have hg2 : (C ++ G)[C.length + 2]? = some ⟨"xor", [some C.length, some c]⟩ := by
    have h := getElem?_append_add C G 2
    rw [h, hG]
    simp
  have hg3 : (C ++ G)[C.length + 3]? = some ⟨"and", [some C.length, some c]⟩ := by
    have h := getElem?_append_add C G 3
    rw [h, hG]
    simp
  have hg4 : (C ++ G)[C.length + 4]? =
      some ⟨"or", [some (C.length + 1), some (C.length + 3)]⟩ := by
    have h := getElem?_append_add C G 4
    rw [h, hG]
    simp
  have e0 : evalWire (C ++ G) env C.length = some (xor va vb) := by
    rw [evalWire_two hg0 ha hb hva5 hvb5]
    rw [if_neg string_neq_xor_and, if_neg string_neq_xor_or, if_pos rfl]
  have e1 : evalWire (C ++ G) env (C.length + 1) = some (va && vb) := by
    rw [evalWire_two hg1 (by omega) (by omega) hva5 hvb5]
    rw [if_pos rfl]
  have e2 : evalWire (C ++ G) env (C.length + 2) = some (xor (xor va vb) vc) := by
    rw [evalWire_two hg2 (by omega) (by omega) e0 hvc5]
    rw [if_neg string_neq_xor_and, if_neg string_neq_xor_or, if_pos rfl]
  have e3 : evalWire (C ++ G) env (C.length + 3) = some (xor va vb && vc) := by
    rw [evalWire_two hg3 (by omega) (by omega) e0 hvc5]
    rw [if_pos rfl]
  have e4 : evalWire (C ++ G) env (C.length + 4)
      = some ((va && vb) || (xor va vb && vc)) := by
    rw [evalWire_two hg4 (by omega) (by omega) e1 e3]
    rw [if_neg string_neq_or_and, if_pos rfl]
  rw [hC]
  exact ⟨rfl, hs, hco, e2, e4⟩

theorem bool_fulladder_sum (va vb vc : Bool) :
    (xor (xor va vb) vc).toNat + 2 * ((va && vb) || (xor va vb && vc)).toNat
      = va.toNat + vb.toNat + vc.toNat := by
  cases va <;> cases vb <;> cases vc <;> rfl

theorem bool_halfadder_sum (va vb : Bool) :
    (xor va vb).toNat + 2 * (va && vb).toNat = va.toNat + vb.toNat := by
  cases va <;> cases vb <;> rfl

theorem colVal_ext {C C' : Circuit} (h : Extends C C') (env : Nat → Bool) :
    ∀ col v, colVal C env col = some v → colVal C' env col = some v := by
  intro col
  induction col with
  | nil => exact fun v hv => hv
  | cons w ws IH =>
    intro v hv
    rcases w with _ | i
    · simp [colVal] at hv
    · simp only [colVal, Option.bind_eq_bind, Option.some_bind] at hv ⊢
      cases hb : evalWire C env i with
      | none => rw [hb] at hv; simp at hv
      | some b =>
        have hi : i < C.length := evalWire_isSome_lt hb
        rw [hb] at hv
        rw [evalWire_ext h env hi, hb]
        cases hr : colVal C env ws with
        | none => rw [hr] at hv; simp at hv
        | some r =>
          rw [hr] at hv
          rw [IH r hr]
          exact hv

theorem colsVal_ext {C C' : Circuit} (h : Extends C C') (env : Nat → Bool) :
    ∀ bits v, colsVal C env bits = some v → colsVal C' env bits = some v := by
  intro bits
  induction bits with
  | nil => exact fun v hv => hv
  | cons col rest IH =>
    intro v hv
    simp only [colsVal, Option.bind_eq_bind] at hv ⊢
    cases hc : colVal C env col with
    | none => rw [hc] at hv; simp at hv
    | some a =>
      rw [hc] at hv
      rw [colVal_ext h env col a hc]
      cases hr : colsVal C env rest with
      | none => rw [hr] at hv; simp at hv
      | some r =>
        rw [hr] at hv
        rw [IH r hr]
        exact hv

theorem bitsVal_ext {C C' : Circuit} (h : Extends C C') (env : Nat → Bool) :
    ∀ ws v, bitsVal C env ws = some v → bitsVal C' env ws = some v := by
  intro ws
  induction ws with
  | nil => exact fun v hv => hv
  | cons w rest IH =>
    intro v hv
    rcases w with _ | i
    · simp [bitsVal] at hv
    · simp only [bitsVal, Option.bind_eq_bind, Option.some_bind] at hv ⊢
      cases hb : evalWire C env i with
      | none => rw [hb] at hv; simp at hv
      | some b =>
        have hi : i < C.length := evalWire_isSome_lt hb
        rw [hb] at hv
        rw [evalWire_ext h env hi, hb]
        cases hr : bitsVal C env rest with
        | none => rw [hr] at hv; simp at hv
        | some r =>
          rw [hr] at hv
          rw [IH r hr]
          exact hv

theorem colVal_append {C : Circuit} {env : Nat → Bool} :
    ∀ xs ys vx vy, colVal C env xs = some vx → colVal C env ys = some vy →
    colVal C env (xs ++ ys) = some (vx + vy) := by
  intro xs
  induction xs with
  | nil =>
    intro ys vx vy hx hy
    simp only [colVal] at hx
    obtain rfl : (0 : Nat) = vx := by simpa using hx
    simpa using hy
  | cons w ws IH =>
    intro ys vx vy hx hy
    rcases w with _ | i
    · simp [colVal] at hx
    · simp only [colVal, Option.bind_eq_bind, Option.some_bind, List.cons_append] at hx ⊢
      cases hb : evalWire C env i with
      | none => rw [hb] at hx; simp at hx
      | some b =>
        rw [hb] at hx
        cases hr : colVal C env ws with
        | none => rw [hr] at hx; simp at hx
        | some r =>
          rw [hr] at hx
          simp only [Option.bind_eq_bind, Option.some_bind, Option.pure_def,
            Option.some.injEq] at hx
          have hg := IH ys r vy hr hy
          simp only [List.append_eq] at hg ⊢
          rw [hg]
          simp only [Option.some_bind, Option.pure_def, Option.some.injEq]
          omega

theorem colsVal_addCarry {C : Circuit} {env : Nat → Bool} {rest : List (List (Option Nat))}
    {vr : Nat} {cw : Nat} {vc : Bool} (hr : colsVal C env rest = some vr)
    (hc : evalWire C env cw = some vc) :
    colsVal C env (addCarry rest (some cw)) = some (vr + vc.toNat) := by
  cases rest with
  | nil =>
    simp only [colsVal, Option.bind_eq_bind] at hr
    obtain rfl : (0 : Nat) = vr := by simpa using hr
    simp [addCarry, colsVal, colVal, hc]
  | cons col1 rs =>
    simp only [colsVal, Option.bind_eq_bind] at hr
    cases h1 : colVal C env col1 with
    | none => rw [h1] at hr; simp at hr
    | some v1 =>
      rw [h1] at hr
      cases h2 : colsVal C env rs with
      | none => rw [h2] at hr; simp at hr
      | some v2 =>
        rw [h2] at hr
        simp only [Option.bind_eq_bind, Option.some_bind, Option.pure_def,
          Option.some.injEq] at hr
        have hcol : colVal C env (col1 ++ [some cw]) = some (v1 + vc.toNat) :=
          colVal_append col1 [some cw] v1 vc.toNat h1 (by simp [colVal, hc])
        simp only [addCarry, colsVal, hcol, h2, Option.bind_eq_bind, Option.some_bind,
          Option.pure_def, Option.some.injEq]
        omega

theorem compress_nil (C : Circuit) : compress C [] = (C, []) := by
  simp only [compress]

theorem compress_single (C : Circuit) (w : Option Nat)
    (rest : List (List (Option Nat))) :
    compress C ([w] :: rest) = ((compress C rest).1, w :: (compress C rest).2) := by
  simp only [compress]

theorem compress_full (C : Circuit) (x y z : Option Nat) (more : List (Option Nat))
    (rest : List (List (Option Nat))) :
    compress C ((x :: y :: z :: more) :: rest) =
      compress (fulladder C x y z).1
        ((more ++ [some (fulladder C x y z).2.1])
          :: addCarry rest (some (fulladder C x y z).2.2)) := by
  simp only [compress]

theorem compress_two (C : Circuit) (x y : Option Nat)
    (rest : List (List (Option Nat))) :
    compress C ([x, y] :: rest) =
      compress (halfadder C x y).1
        ([some (halfadder C x y).2.1] :: addCarry rest (some (halfadder C x y).2.2)) := by
  simp only [compress]

theorem compress_empty (C : Circuit) (rest : List (List (Option Nat))) :
    compress C ([] :: rest) = compress C ([none] :: addCarry rest none) := by
  simp only [compress]

theorem fulladder_circuit_extends (C : Circuit) (x y z : Option Nat) :
    Extends C (fulladder C x y z).1 :=
  ⟨[⟨"xor", [x, y]⟩, ⟨"and", [x, y]⟩, ⟨"xor", [some C.length, z]⟩,
    ⟨"and", [some C.length, z]⟩, ⟨"or", [some (C.length + 1), some (C.length + 3)]⟩],
   by simp [fulladder, halfadder, gate]⟩

theorem halfadder_circuit_extends (C : Circuit) (x y : Option Nat) :
    Extends C (halfadder C x y).1 :=
  ⟨[⟨"xor", [x, y]⟩, ⟨"and", [x, y]⟩], by simp [halfadder, gate]⟩

theorem compress_extends (C : Circuit) (bits : List (List (Option Nat))) :
    Extends C (compress C bits).1 := by
  induction C, bits using compress.induct with
  | case1 C => rw [compress_nil]; exact Extends.rfl
  | case2 C w rest IH => rw [compress_single]; exact IH
  | case3 C x y z more rest p IH =>
    rw [compress_full]
    exact Extends.trans (fulladder_circuit_extends C x y z) IH
  | case4 C x y rest p IH =>
    rw [compress_two]
    exact Extends.trans (halfadder_circuit_extends C x y) IH
  | case5 C rest IH => rw [compress_empty]; exact IH

theorem colVal_cons_inv {C : Circuit} {env : Nat → Bool} {w : Option Nat}
    {ws : List (Option Nat)} {v : Nat} (h : colVal C env (w :: ws) = some v) :
    ∃ i b r, w = some i ∧ evalWire C env i = some b ∧ colVal C env ws = some r ∧
      v = b.toNat + r := by
  rcases w with _ | i
  · simp [colVal] at h
  · simp only [colVal, Option.bind_eq_bind, Option.some_bind] at h
    cases hb : evalWire C env i with
    | none => rw [hb] at h; simp at h
    | some b =>
      rw [hb] at h
      cases hr : colVal C env ws with
      | none => rw [hr] at h; simp at h
      | some r =>
        rw [hr] at h
        simp only [Option.some_bind, Option.pure_def, Option.some.injEq] at h
        exact ⟨i, b, r, rfl, hb, rfl, h.symm⟩

theorem colsVal_cons_inv {C : Circuit} {env : Nat → Bool} {col : List (Option Nat)}
    {rest : List (List (Option Nat))} {v : Nat}
    (h : colsVal C env (col :: rest) = some v) :
    ∃ a r, colVal C env col = some a ∧ colsVal C env rest = some r ∧ v = a + 2 * r := by
  simp only [colsVal, Option.bind_eq_bind] at h
  cases hc : colVal C env col with
  | none => rw [hc] at h; simp at h
  | some a =>
    rw [hc] at h
    cases hr : colsVal C env rest with
    | none => rw [hr] at h; simp at h
    | some r =>
      rw [hr] at h
      simp only [Option.some_bind, Option.pure_def, Option.some.injEq] at h
      exact ⟨a, r, rfl, rfl, h.symm⟩

theorem colsVal_cons_mk {C : Circuit} {env : Nat → Bool} {col : List (Option Nat)}
    {rest : List (List (Option Nat))} {a r : Nat}
    (h1 : colVal C env col = some a) (h2 : colsVal C env rest = some r) :
    colsVal C env (col :: rest) = some (a + 2 * r) := by
  simp [colsVal, h1, h2]

theorem bitsVal_cons_mk {C : Circuit} {env : Nat → Bool} {i : Nat} {b : Bool}
    {ws : List (Option Nat)} {r : Nat}
    (hw : evalWire C env i = some b) (h : bitsVal C env ws = some r) :
    bitsVal C env (some i :: ws) = some (b.toNat + 2 * r) := by
  simp [bitsVal, hw, h]

theorem colVal_singleton {C : Circuit} {env : Nat → Bool} {i : Nat} {b : Bool}
    (hw : evalWire C env i = some b) :
    colVal C env [some i] = some b.toNat := by
  simp [colVal, hw]

theorem addCarry_mem_ne_nil {rest : List (List (Option Nat))} {c : Option Nat}
    (hne : ∀ col ∈ rest, col ≠ []) :
    ∀ col ∈ addCarry rest c, col ≠ [] := by
  cases rest with
  | nil => intro col hc; simp [addCarry] at hc; simp [hc]
  | cons c1 rs =>
    intro col hc
    simp only [addCarry, List.mem_cons] at hc
    rcases hc with rfl | hc
    · simp
    · exact hne col (by simp [hc])

theorem compress_value (env : Nat → Bool) (C : Circuit)
    (bits : List (List (Option Nat))) :
    ∀ n, (∀ col ∈ bits, col ≠ []) → colsVal C env bits = some n →
      bitsVal (compress C bits).1 env (compress C bits).2 = some n := by
  induction C, bits using compress.induct with
  | case1 C =>
    intro n _ hv
    rw [compress_nil]
    simp only [colsVal] at hv
    simpa [bitsVal] using hv
  | case2 C w rest IH =>
    intro n hne hv
    rw [compress_single]
    obtain ⟨a, r, ha, hr, rfl⟩ := colsVal_cons_inv hv
    obtain ⟨i, b, r0, rfl, hb, h0, rfl⟩ := colVal_cons_inv ha
    have hr0 : 0 = r0 := by simpa [colVal] using h0
    subst hr0
    have hrec := IH r (fun col hc => hne col (by simp [hc])) hr
    have hext := compress_extends C rest
    have hb' : evalWire (compress C rest).1 env i = some b := by
      rw [evalWire_ext hext env (evalWire_isSome_lt hb)]
      exact hb
    have hfin := bitsVal_cons_mk hb' hrec
    simpa using hfin
  | case3 C x y z more rest p IH =>
    intro n hne hv
    have hp : p = fulladder C x y z := rfl
    clear_value p
    rw [hp] at IH
    rw [compress_full]
    obtain ⟨a, r, ha, hr, rfl⟩ := colsVal_cons_inv hv
    obtain ⟨ax, vx, r1, rfl, hvx, h1, rfl⟩ := colVal_cons_inv ha
    obtain ⟨ay, vy, r2, rfl, hvy, h2, rfl⟩ := colVal_cons_inv h1
    obtain ⟨az, vz, vm, rfl, hvz, hm, rfl⟩ := colVal_cons_inv h2
    obtain ⟨hfc, hfs, hfco, hes, hec⟩ := fulladder_spec C env hvx hvy hvz
    have hext : Extends C (fulladder C (some ax) (some ay) (some az)).1 :=
      fulladder_circuit_extends C _ _ _
    have hm' : colVal (fulladder C (some ax) (some ay) (some az)).1 env more = some vm :=
      colVal_ext hext env more vm hm
    have hsv : evalWire (fulladder C (some ax) (some ay) (some az)).1 env
        (fulladder C (some ax) (some ay) (some az)).2.1 = some (xor (xor vx vy) vz) := by
      rw [hfs]; exact hes
    have hcv : evalWire (fulladder C (some ax) (some ay) (some az)).1 env
        (fulladder C (some ax) (some ay) (some az)).2.2
        = some ((vx && vy) || (xor vx vy && vz)) := by
      rw [hfco]; exact hec
    have hcol0 := colVal_append more [some (fulladder C (some ax) (some ay) (some az)).2.1]
      vm (xor (xor vx vy) vz).toNat hm' (colVal_singleton hsv)
    have hrest' : colsVal (fulladder C (some ax) (some ay) (some az)).1 env rest = some r :=
      colsVal_ext hext env rest r hr
    have hcarry := colsVal_addCarry hrest' hcv
    have hnew := colsVal_cons_mk hcol0 hcarry
    have hne' : ∀ col ∈ ((more ++ [some (fulladder C (some ax) (some ay) (some az)).2.1])
        :: addCarry rest (some (fulladder C (some ax) (some ay) (some az)).2.2)), col ≠ [] := by
      intro col hc
      rcases List.mem_cons.mp hc with rfl | hc
      · simp
      · exact addCarry_mem_ne_nil (fun c' h' => hne c' (by simp [h'])) col hc
    have hkey := bool_fulladder_sum vx vy vz
    have hres := IH _ hne' hnew
    rw [hres]
    simp only [Option.some.injEq]
    omega
  | case4 C x y rest p IH =>
    intro n hne hv
    have hp : p = halfadder C x y := rfl
    clear_value p
    rw [hp] at IH
    rw [compress_two]
    obtain ⟨a, r, ha, hr, rfl⟩ := colsVal_cons_inv hv
    obtain ⟨ax, vx, r1, rfl, hvx, h1, rfl⟩ := colVal_cons_inv ha
    obtain ⟨ay, vy, r2, rfl, hvy, h2, rfl⟩ := colVal_cons_inv h1
    have hr2 : 0 = r2 := by simpa [colVal] using h2
    subst hr2
    obtain ⟨hhc, hhs, hhco, hes, hec⟩ := halfadder_spec C env hvx hvy
    have hext : Extends C (halfadder C (some ax) (some ay)).1 :=
      halfadder_circuit_extends C _ _
    have hsv : evalWire (halfadder C (some ax) (some ay)).1 env
        (halfadder C (some ax) (some ay)).2.1 = some (xor vx vy) := hes
    have hcv : evalWire (halfadder C (some ax) (some ay)).1 env
        (halfadder C (some ax) (some ay)).2.2 = some (vx && vy) := hec
    have hcol0 := colVal_singleton hsv
    have hrest' : colsVal (halfadder C (some ax) (some ay)).1 env rest = some r :=
      colsVal_ext hext env rest r hr
    have hcarry := colsVal_addCarry hrest' hcv
    have hnew := colsVal_cons_mk hcol0 hcarry
    have hne' : ∀ col ∈ ([some (halfadder C (some ax) (some ay)).2.1]
        :: addCarry rest (some (halfadder C (some ax) (some ay)).2.2)), col ≠ [] := by
      intro col hc
      rcases List.mem_cons.mp hc with rfl | hc
      · simp
      · exact addCarry_mem_ne_nil (fun c' h' => hne c' (by simp [h'])) col hc
    have hkey := bool_halfadder_sum vx vy
    have hres := IH _ hne' hnew
    rw [hres]
    simp only [Option.some.injEq]
    omega
  | case5 C rest IH =>
    intro n hne hv
    exact absurd rfl (hne [] (by simp))

theorem addCarry_map_length (rest : List (List (Option Nat))) (c : Option Nat) :
    (addCarry rest c).map List.length = addCarryLen (rest.map List.length) := by
  cases rest <;> simp [addCarry, addCarryLen]

theorem shapeLen_nil : shapeLen [] = 0 := by
  simp only [shapeLen]

theorem shapeLen_one (rest : List Nat) : shapeLen (1 :: rest) = 1 + shapeLen rest := by
  simp only [shapeLen]

theorem shapeLen_ge3 (n : Nat) (rest : List Nat) :
    shapeLen ((n + 3) :: rest) = shapeLen ((n + 1) :: addCarryLen rest) := by
  simp only [shapeLen]

theorem shapeLen_two (rest : List Nat) :
    shapeLen (2 :: rest) = shapeLen (1 :: addCarryLen rest) := by
  simp only [shapeLen]

theorem shapeLen_zero (rest : List Nat) :
    shapeLen (0 :: rest) = shapeLen (1 :: addCarryLen rest) := by
  simp only [shapeLen]

theorem compress_len (C : Circuit) (bits : List (List (Option Nat))) :
    (compress C bits).2.length = shapeLen (bits.map List.length) := by
  induction C, bits using compress.induct with
  | case1 C => rw [compress_nil]; simp [shapeLen_nil]
  | case2 C w rest IH =>
    rw [compress_single]
    simp only [List.map_cons, List.length_cons, List.length_nil,
      Nat.zero_add, shapeLen_one]
    simp only [List.length_cons, IH]
    omega
  | case3 C x y z more rest p IH =>
    have hp : p = fulladder C x y z := rfl
    clear_value p
    rw [hp] at IH
    rw [compress_full, IH]
    simp only [List.map_cons, addCarry_map_length, List.length_append,
      List.length_cons, List.length_nil, List.length_singleton]
    rw [show more.length + 2 + 1 = more.length + 3 by omega, shapeLen_ge3]
  | case4 C x y rest p IH =>
    have hp : p = halfadder C x y := rfl
    clear_value p
    rw [hp] at IH
    rw [compress_two, IH]
    simp only [List.map_cons, addCarry_map_length, List.length_cons,
      List.length_nil, List.length_singleton]
    rw [show (1 : Nat) + 1 = 2 by omega, shapeLen_two]
  | case5 C rest IH =>
    rw [compress_empty, IH]
    simp only [List.map_cons, addCarry_map_length, List.length_cons,
      List.length_nil, List.length_singleton]
    rw [shapeLen_zero]

theorem compress_allempty (C : Circuit) (bits : List (List (Option Nat))) :
    ∀ k m, k ≤ 2 → bits = List.replicate k [none] ++ List.replicate m [] →
      (compress C bits).1 = C := by
  induction C, bits using compress.induct with
  | case1 C => intro k m _ _; rw [compress_nil]
  | case2 C w rest IH =>
    intro k m hk heq
    rw [compress_single]
    rcases k with _ | _ | _ | k
    · cases m with
      | zero => simp at heq
      | succ m' => simp [List.replicate_succ] at heq
    · simp only [List.replicate_succ, List.replicate_zero, List.nil_append,
        List.cons_append, List.cons.injEq] at heq
      exact IH 0 m (by omega) (by simpa using heq.2)
    · simp only [List.replicate_succ, List.cons_append, List.cons.injEq] at heq
      exact IH 1 m (by omega) (by simpa [List.replicate_succ] using heq.2)
    · omega
  | case3 C x y z more rest p IH =>
    intro k m hk heq
    exfalso
    rcases k with _ | k
    · cases m with
      | zero => simp at heq
      | succ m' => simp [List.replicate_succ] at heq
    · simp [List.replicate_succ] at heq
  | case4 C x y rest p IH =>
    intro k m hk heq
    exfalso
    rcases k with _ | k
    · cases m with
      | zero => simp at heq
      | succ m' => simp [List.replicate_succ] at heq
    · simp [List.replicate_succ] at heq
  | case5 C rest IH =>
    intro k m hk heq
    rw [compress_empty]
    rcases k with _ | k
    · cases m with
      | zero => simp at heq
      | succ m' =>
        simp only [List.replicate_zero, List.nil_append, List.replicate_succ,
          List.cons.injEq] at heq
        cases m' with
        | zero =>
          refine IH 2 0 (by omega) ?_
          simp [addCarry, heq.2, List.replicate_succ]
        | succ t =>
          refine IH 2 t (by omega) ?_
          simp [addCarry, heq.2, List.replicate_succ]
    · simp [List.replicate_succ] at heq

theorem circOk_append {C : Circuit} {G : List Gate} (h : CircOk C)
    (hG : ∀ (j : Nat) (g : Gate), G[j]? = some g →
      ∀ v ∈ g.args, ∃ k, v = some k ∧ k < C.length + j) :
    CircOk (C ++ G) := by
  intro i g hg v hv
  by_cases hi : i < C.length
  · rw [List.getElem?_append_left hi] at hg
    exact h i g hg v hv
  · rw [List.getElem?_append_right (by omega)] at hg
    obtain ⟨k, hk, hlt⟩ := hG (i - C.length) g hg v hv
    exact ⟨k, hk, by omega⟩

theorem halfadder_circ (C : Circuit) (x y : Option Nat) :
    (halfadder C x y).1 = C ++ [⟨"xor", [x, y]⟩, ⟨"and", [x, y]⟩] ∧
    (halfadder C x y).2.1 = C.length ∧ (halfadder C x y).2.2 = C.length + 1 := by
  refine ⟨?_, ?_, ?_⟩ <;> simp [halfadder, gate]

theorem fulladder_circ (C : Circuit) (x y z : Option Nat) :
    (fulladder C x y z).1 =
      C ++ [⟨"xor", [x, y]⟩, ⟨"and", [x, y]⟩, ⟨"xor", [some C.length, z]⟩,
            ⟨"and", [some C.length, z]⟩,
            ⟨"or", [some (C.length + 1), some (C.length + 3)]⟩] ∧
    (fulladder C x y z).2.1 = C.length + 2 ∧ (fulladder C x y z).2.2 = C.length + 4 := by
  refine ⟨?_, ?_, ?_⟩ <;> simp [fulladder, halfadder, gate]

theorem halfadder_ok {C : Circuit} {a b : Nat} (h : CircOk C)
    (ha : a < C.length) (hb : b < C.length) :
    CircOk (halfadder C (some a) (some b)).1 := by
  rw [(halfadder_circ C (some a) (some b)).1]
  refine circOk_append h ?_
  intro j g hgj v hv
  rcases j with _ | _ | j
  · simp only [List.getElem?_cons_zero, Option.some.injEq] at hgj
    subst hgj
    simp only [List.mem_cons, List.not_mem_nil, or_false] at hv
    rcases hv with rfl | rfl
    · exact ⟨a, rfl, by omega⟩
    · exact ⟨b, rfl, by omega⟩
  · simp only [List.getElem?_cons_succ, List.getElem?_cons_zero,
      Option.some.injEq] at hgj
    subst hgj
    simp only [List.mem_cons, List.not_mem_nil, or_false] at hv
    rcases hv with rfl | rfl
    · exact ⟨a, rfl, by omega⟩
    · exact ⟨b, rfl, by omega⟩
  · simp at hgj

theorem fulladder_ok {C : Circuit} {a b c : Nat} (h : CircOk C)
    (ha : a < C.length) (hb : b < C.length) (hc : c < C.length) :
    CircOk (fulladder C (some a) (some b) (some c)).1 := by
  rw [(fulladder_circ C (some a) (some b) (some c)).1]
  refine circOk_append h ?_
  intro j g hgj v hv
  rcases j with _ | _ | _ | _ | _ | j
  · simp only [List.getElem?_cons_zero, Option.some.injEq] at hgj
    subst hgj
    simp only [List.mem_cons, List.not_mem_nil, or_false] at hv
    rcases hv with rfl | rfl
    · exact ⟨a, rfl, by omega⟩
    · exact ⟨b, rfl, by omega⟩
  · simp only [List.getElem?_cons_succ, List.getElem?_cons_zero,
      Option.some.injEq] at hgj
    subst hgj
    simp only [List.mem_cons, List.not_mem_nil, or_false] at hv
    rcases hv with rfl | rfl
    · exact ⟨a, rfl, by omega⟩
    · exact ⟨b, rfl, by omega⟩
  · simp only [List.getElem?_cons_succ, List.getElem?_cons_zero,
      Option.some.injEq] at hgj
    subst hgj
    simp only [List.mem_cons, List.not_mem_nil, or_false] at hv
    rcases hv with rfl | rfl
    · exact ⟨C.length, rfl, by omega⟩
    · exact ⟨c, rfl, by omega⟩
  · simp only [List.getElem?_cons_succ, List.getElem?_cons_zero,
      Option.some.injEq] at hgj
    subst hgj
    simp only [List.mem_cons, List.not_mem_nil, or_false] at hv
    rcases hv with rfl | rfl
    · exact ⟨C.length, rfl, by omega⟩
    · exact ⟨c, rfl, by omega⟩
  · simp only [List.getElem?_cons_succ, List.getElem?_cons_zero,
      Option.some.injEq] at hgj
    subst hgj
    simp only [List.mem_cons, List.not_mem_nil, or_false] at hv
    rcases hv with rfl | rfl
    · exact ⟨C.length + 1, rfl, by omega⟩
    · exact ⟨C.length + 3, rfl, by omega⟩
  · simp at hgj

theorem compress_ok (C : Circuit) (bits : List (List (Option Nat))) :
    (∀ col ∈ bits, col ≠ []) →
    (∀ col ∈ bits, ∀ v ∈ col, ∃ k, v = some k ∧ k < C.length) →
    CircOk C → CircOk (compress C bits).1 := by
  induction C, bits using compress.induct with
  | case1 C => intro _ _ h; rw [compress_nil]; exact h
  | case2 C w rest IH =>
    intro hne hval h
    rw [compress_single]
    exact IH (fun col hc => hne col (by simp [hc]))
      (fun col hc => hval col (by simp [hc])) h
  | case3 C x y z more rest p IH =>
    intro hne hval h
    have hp : p = fulladder C x y z := rfl
    clear_value p
    rw [hp] at IH
    rw [compress_full]
    obtain ⟨ax, hax, hlx⟩ := hval (x :: y :: z :: more) (by simp) x (by simp)
    obtain ⟨ay, hay, hly⟩ := hval (x :: y :: z :: more) (by simp) y (by simp)
    obtain ⟨az, haz, hlz⟩ := hval (x :: y :: z :: more) (by simp) z (by simp)
    subst hax hay haz
    have hok : CircOk (fulladder C (some ax) (some ay) (some az)).1 :=
      fulladder_ok h hlx hly hlz
    have hlen : (fulladder C (some ax) (some ay) (some az)).1.length = C.length + 5 := by
      rw [(fulladder_circ C (some ax) (some ay) (some az)).1]
      simp
    refine IH ?_ ?_ hok
    · intro col hc
      rcases List.mem_cons.mp hc with rfl | hc
      · simp
      · exact addCarry_mem_ne_nil (fun c' h' => hne c' (by simp [h'])) col hc
    · intro col hc v hv
      rcases List.mem_cons.mp hc with rfl | hc
      · rcases List.mem_append.mp hv with hv | hv
        · obtain ⟨k, hk, hlt⟩ := hval (some ax :: some ay :: some az :: more)
            (by simp) v (by simp [hv])
          exact ⟨k, hk, by omega⟩
        · simp only [List.mem_singleton] at hv
          subst hv
          exact ⟨_, rfl, by
            rw [(fulladder_circ C (some ax) (some ay) (some az)).2.1]
            omega⟩
      · rcases rest with _ | ⟨col1, rs⟩
        · simp only [addCarry, List.mem_singleton] at hc
          subst hc
          simp only [List.mem_singleton] at hv
          subst hv
          exact ⟨_, rfl, by
            rw [(fulladder_circ C (some ax) (some ay) (some az)).2.2]
            omega⟩
        · simp only [addCarry, List.mem_cons] at hc
          rcases hc with rfl | hc
          · rcases List.mem_append.mp hv with hv | hv
            · obtain ⟨k, hk, hlt⟩ := hval col1 (by simp) v hv
              exact ⟨k, hk, by omega⟩
            · simp only [List.mem_singleton] at hv
              subst hv
              exact ⟨_, rfl, by
                rw [(fulladder_circ C (some ax) (some ay) (some az)).2.2]
                omega⟩
          · obtain ⟨k, hk, hlt⟩ := hval col (by simp [hc]) v hv
            exact ⟨k, hk, by omega⟩
  | case4 C x y rest p IH =>
    intro hne hval h
    have hp : p = halfadder C x y := rfl
    clear_value p
    rw [hp] at IH
    rw [compress_two]
    obtain ⟨ax, hax, hlx⟩ := hval [x, y] (by simp) x (by simp)
    obtain ⟨ay, hay, hly⟩ := hval [x, y] (by simp) y (by simp)
    subst hax hay
    have hok : CircOk (halfadder C (some ax) (some ay)).1 := halfadder_ok h hlx hly
    have hlen : (halfadder C (some ax) (some ay)).1.length = C.length + 2 := by
      rw [(halfadder_circ C (some ax) (some ay)).1]
      simp
    refine IH ?_ ?_ hok
    · intro col hc
      rcases List.mem_cons.mp hc with rfl | hc
      · simp
      · exact addCarry_mem_ne_nil (fun c' h' => hne c' (by simp [h'])) col hc
    · intro col hc v hv
      rcases List.mem_cons.mp hc with rfl | hc
      · simp only [List.mem_singleton] at hv
        subst hv
        exact ⟨_, rfl, by
          rw [(halfadder_circ C (some ax) (some ay)).2.1]
          omega⟩
      · rcases rest with _ | ⟨col1, rs⟩
        · simp only [addCarry, List.mem_singleton] at hc
          subst hc
          simp only [List.mem_singleton] at hv
          subst hv
          exact ⟨_, rfl, by
            rw [(halfadder_circ C (some ax) (some ay)).2.2]
            omega⟩
        · simp only [addCarry, List.mem_cons] at hc
          rcases hc with rfl | hc
          · rcases List.mem_append.mp hv with hv | hv
            · obtain ⟨k, hk, hlt⟩ := hval col1 (by simp) v hv
              exact ⟨k, hk, by omega⟩
            · simp only [List.mem_singleton] at hv
              subst hv
              exact ⟨_, rfl, by
                rw [(halfadder_circ C (some ax) (some ay)).2.2]
                omega⟩
          · obtain ⟨k, hk, hlt⟩ := hval col (by simp [hc]) v hv
            exact ⟨k, hk, by omega⟩
  | case5 C rest IH =>
    intro hne hval h
    exact absurd rfl (hne [] (by simp))

theorem inputs_spec (C : Circuit) (name : String) (n : Nat) :
    (inputs C name n).1 = C ++ (List.range n).map (fun i => ⟨name ++ toString i, []⟩) ∧
    (inputs C name n).2 = (List.range n).map (fun i => C.length + i) := by
  induction n with
  | zero => simp [inputs]
  | succ m IH =>
    obtain ⟨IH1, IH2⟩ := IH
    have hstep : inputs C name (m + 1) =
        (let g := gate (inputs C name m).1 (name ++ toString m) []
         ((g.1, (inputs C name m).2 ++ [g.2]))) := by
      simp only [inputs, List.range_succ, List.foldl_append, List.foldl_cons,
        List.foldl_nil]
    have hlen : (inputs C name m).1.length = C.length + m := by
      rw [IH1]; simp
    constructor
    · rw [hstep]
      simp only [gate, IH1, List.range_succ, List.map_append, List.map_cons,
        List.map_nil, List.append_assoc]
    · rw [hstep]
      simp only [gate, IH2, hlen, List.range_succ, List.map_append, List.map_cons,
        List.map_nil]

theorem inputs_ok {C : Circuit} (name : String) (n : Nat) (h : CircOk C) :
    CircOk (inputs C name n).1 := by
  rw [(inputs_spec C name n).1]
  refine circOk_append h ?_
  intro j g hgj v hv
  rw [List.getElem?_map] at hgj
  rcases hr : (List.range n)[j]? with _ | r
  · rw [hr] at hgj; simp at hgj
  · rw [hr] at hgj
    simp only [Option.map_some', Option.some.injEq] at hgj
    subst hgj
    simp at hv

theorem getD_set_self {α : Type} : ∀ (l : List α) (i : Nat), i < l.length →
    ∀ (a dflt : α), (l.set i a).getD i dflt = a := by
  intro l
  induction l with
  | nil => intro i hi; simp at hi
  | cons x xs IH =>
    intro i hi a dflt
    cases i with
    | zero => rfl
    | succ k => exact IH k (by simpa using hi) a dflt

theorem getD_set_ne {α : Type} : ∀ (l : List α) (i j : Nat), i ≠ j →
    ∀ (a dflt : α), (l.set i a).getD j dflt = l.getD j dflt := by
  intro l
  induction l with
  | nil => intro i j _ a dflt; simp
  | cons x xs IH =>
    intro i j hij a dflt
    cases i with
    | zero =>
      cases j with
      | zero => exact absurd rfl hij
      | succ k => rfl
    | succ k =>
      cases j with
      | zero => rfl
      | succ m => exact IH k m (by omega) a dflt

theorem innerRange_bounds (na nb d : Nat) :
    ∀ i ∈ innerRange na nb d, i < na ∧ d - i < nb ∧ d + 1 - nb ≤ i ∧ i ≤ d := by
  intro i hi
  simp only [innerRange, List.mem_range'_1] at hi
  omega

theorem mulBody_circ (st : MulSt) (d i : Nat) :
    (mulBody st d i).C =
      st.C ++ [⟨nameAt st.C (st.la.getD i 0), [some (st.la.getD i 0)]⟩,
               ⟨nameAt (st.C ++ [⟨nameAt st.C (st.la.getD i 0), [some (st.la.getD i 0)]⟩])
                  (st.lb.getD (d - i) 0), [some (st.lb.getD (d - i) 0)]⟩,
               ⟨"and", [some st.C.length, some (st.C.length + 1)]⟩] ∧
    (mulBody st d i).la = st.la.set i st.C.length ∧
    (mulBody st d i).lb = st.lb.set (d - i) (st.C.length + 1) ∧
    (mulBody st d i).land = st.land.set d ((st.land.getD d []) ++ [st.C.length + 2]) := by
  refine ⟨?_, ?_, ?_, ?_⟩ <;> simp [mulBody, gate]

theorem mulBody_inv {C0 : Circuit} {na nb : Nat} {st : MulSt}
    (h : MulInv C0 na nb st) {d i : Nat} (hi : i < na) (hj : d - i < nb) :
    MulInv C0 na nb (mulBody st d i) := by
  obtain ⟨hOk, hext, hla, hlb, hland, hlena, hlenb, hlenl⟩ := h
  obtain ⟨hc, hla', hlb', hland'⟩ := mulBody_circ st d i
  have hamem : st.la.getD i 0 ∈ st.la := by
    rw [List.getD_eq_getElem st.la 0 (by omega)]
    exact List.getElem_mem _
  have hbmem : st.lb.getD (d - i) 0 ∈ st.lb := by
    rw [List.getD_eq_getElem st.lb 0 (by omega)]
    exact List.getElem_mem _
  have ha : st.la.getD i 0 < st.C.length := hla _ hamem
  have hb : st.lb.getD (d - i) 0 < st.C.length := hlb _ hbmem
  have hlen : (mulBody st d i).C.length = st.C.length + 3 := by
    rw [hc]; simp
  refine ⟨?_, ?_, ?_, ?_, ?_, ?_, ?_, ?_⟩
  · rw [hc]
    refine circOk_append hOk ?_
    intro j g hgj v hv
    rcases j with _ | _ | _ | j
    · simp only [List.getElem?_cons_zero, Option.some.injEq] at hgj
      subst hgj
      simp only [List.mem_singleton] at hv
      subst hv
      exact ⟨_, rfl, by omega⟩
    · simp only [List.getElem?_cons_succ, List.getElem?_cons_zero,
        Option.some.injEq] at hgj
      subst hgj
      simp only [List.mem_singleton] at hv
      subst hv
      exact ⟨_, rfl, by omega⟩
    · simp only [List.getElem?_cons_succ, List.getElem?_cons_zero,
        Option.some.injEq] at hgj
      subst hgj
      simp only [List.mem_cons, List.not_mem_nil, or_false] at hv
      rcases hv with rfl | rfl
      · exact ⟨st.C.length, rfl, by omega⟩
      · exact ⟨st.C.length + 1, rfl, by omega⟩
    · simp at hgj
  · exact Extends.trans hext ⟨_, hc⟩
  · rw [hla', hlen]
    intro w hw
    rcases List.mem_or_eq_of_mem_set hw with hw | rfl
    · exact lt_trans (hla w hw) (by omega)
    · omega
  · rw [hlb', hlen]
    intro w hw
    rcases List.mem_or_eq_of_mem_set hw with hw | rfl
    · exact lt_trans (hlb w hw) (by omega)
    · omega
  · rw [hland', hlen]
    intro col hcol w hw
    rcases List.mem_or_eq_of_mem_set hcol with hcol | rfl
    · exact lt_trans (hland col hcol w hw) (by omega)
    · rcases List.mem_append.mp hw with hw | hw
      · have hdd : st.land.getD d [] ∈ st.land ∨ st.land.getD d [] = [] := by
          by_cases hd : d < st.land.length
          · left
            rw [List.getD_eq_getElem st.land [] hd]
            exact List.getElem_mem _
          · right
            rw [List.getD_eq_default]
            omega
        rcases hdd with hdd | hdd
        · exact lt_trans (hland _ hdd w hw) (by omega)
        · rw [hdd] at hw; simp at hw
      · simp only [List.mem_singleton] at hw
        subst hw
        omega
  · rw [hla']; simp [hlena]
  · rw [hlb']; simp [hlenb]
  · rw [hland']; simp [hlenl]

theorem innerFold_inv {C0 : Circuit} {na nb : Nat} (d : Nat) :
    ∀ (l : List Nat) (st : MulSt), MulInv C0 na nb st →
      (∀ i ∈ l, i < na ∧ d - i < nb) →
      MulInv C0 na nb (l.foldl (fun s2 i => mulBody s2 d i) st) := by
  intro l
  induction l with
  | nil => intro st h _; exact h
  | cons i t IH =>
    intro st h hl
    simp only [List.foldl_cons]
    exact IH _ (mulBody_inv h (hl i (by simp)).1 (hl i (by simp)).2)
      (fun i' hi' => hl i' (by simp [hi']))

theorem mulLoop_inv {C0 : Circuit} {na nb : Nat} {st : MulSt}
    (h : MulInv C0 na nb st) : MulInv C0 na nb (mulLoop st na nb) := by
  rw [mulLoop]
  have hgen : ∀ (ds : List Nat) (s : MulSt), MulInv C0 na nb s →
      MulInv C0 na nb (ds.foldl
        (fun s d => (innerRange na nb d).foldl (fun s2 i => mulBody s2 d i) s) s) := by
    intro ds
    induction ds with
    | nil => intro s hs; exact hs
    | cons d t IH =>
      intro s hs
      simp only [List.foldl_cons]
      refine IH _ (innerFold_inv d (innerRange na nb d) s hs ?_)
      intro i hi
      have := innerRange_bounds na nb d i hi
      exact ⟨this.1, this.2.1⟩
  exact hgen _ st h

theorem mulBody_land_len (st : MulSt) (d i : Nat) :
    (mulBody st d i).land.length = st.land.length := by
  rw [(mulBody_circ st d i).2.2.2]
  simp

theorem mulBody_land_mono (st : MulSt) (d i d' : Nat)
    (h : st.land.getD d' [] ≠ []) : (mulBody st d i).land.getD d' [] ≠ [] := by
  rw [(mulBody_circ st d i).2.2.2]
  by_cases hdd : d = d'
  · subst hdd
    by_cases hd : d < st.land.length
    · rw [getD_set_self _ _ hd]
      simp
    · rw [List.getD_eq_default] at h
      · exact absurd rfl h
      · omega
  · rw [getD_set_ne _ _ _ hdd]
    exact h

theorem innerFold_land_mono (d : Nat) :
    ∀ (l : List Nat) (st : MulSt) (d' : Nat), st.land.getD d' [] ≠ [] →
      ((l.foldl (fun s2 i => mulBody s2 d i) st).land.getD d' [] ≠ []) := by
  intro l
  induction l with
  | nil => intro st d' h; exact h
  | cons i t IH =>
    intro st d' h
    simp only [List.foldl_cons]
    exact IH _ d' (mulBody_land_mono st d i d' h)

theorem innerFold_land_len (d : Nat) :
    ∀ (l : List Nat) (st : MulSt),
      (l.foldl (fun s2 i => mulBody s2 d i) st).land.length = st.land.length := by
  intro l
  induction l with
  | nil => intro st; rfl
  | cons i t IH =>
    intro st
    simp only [List.foldl_cons]
    rw [IH, mulBody_land_len]

theorem innerFold_fills (d : Nat) :
    ∀ (l : List Nat) (st : MulSt), l ≠ [] → d < st.land.length →
      ((l.foldl (fun s2 i => mulBody s2 d i) st).land.getD d [] ≠ []) := by
  intro l
  cases l with
  | nil => intro st h; exact absurd rfl h
  | cons i t =>
    intro st _ hd
    simp only [List.foldl_cons]
    refine innerFold_land_mono d t _ d ?_
    rw [(mulBody_circ st d i).2.2.2, getD_set_self _ _ hd]
    simp

theorem innerRange_ne_nil {na nb d : Nat} (hna : 1 ≤ na) (hnb : 1 ≤ nb)
    (hd : d < na + nb - 1) : innerRange na nb d ≠ [] := by
  rw [innerRange]
  have hlen : min na (d + 1) - (d + 1 - nb) ≠ 0 := by omega
  intro hcon
  exact hlen (by simpa using congrArg List.length hcon)

theorem innerRange_degenerate (na nb d : Nat) (h : na = 0 ∨ nb = 0) :
    innerRange na nb d = [] := by
  rw [innerRange]
  have hlen : min na (d + 1) - (d + 1 - nb) = 0 := by omega
  rw [hlen]
  simp

theorem mulLoop_noop {st : MulSt} {na nb : Nat} (h : na = 0 ∨ nb = 0) :
    mulLoop st na nb = st := by
  rw [mulLoop]
  have hgen : ∀ (ds : List Nat) (s : MulSt), ds.foldl
      (fun s d => (innerRange na nb d).foldl (fun s2 i => mulBody s2 d i) s) s = s := by
    intro ds
    induction ds with
    | nil => intro s; rfl
    | cons d t IH =>
      intro s
      simp only [List.foldl_cons, innerRange_degenerate na nb d h, List.foldl_nil]
      exact IH s
  exact hgen _ st

theorem outerFold_land_mono {na nb : Nat} :
    ∀ (ds : List Nat) (st : MulSt) (d' : Nat), st.land.getD d' [] ≠ [] →
      ((ds.foldl
        (fun s d => (innerRange na nb d).foldl (fun s2 i => mulBody s2 d i) s)
        st).land.getD d' [] ≠ []) := by
  intro ds
  induction ds with
  | nil => intro st d' h; exact h
  | cons d t IH =>
    intro st d' h
    simp only [List.foldl_cons]
    exact IH _ d' (innerFold_land_mono d _ st d' h)

theorem outerFold_land_len {na nb : Nat} :
    ∀ (ds : List Nat) (st : MulSt),
      ((ds.foldl
        (fun s d => (innerRange na nb d).foldl (fun s2 i => mulBody s2 d i) s)
        st).land.length = st.land.length) := by
  intro ds
  induction ds with
  | nil => intro st; rfl
  | cons d t IH =>
    intro st
    simp only [List.foldl_cons]
    rw [IH, innerFold_land_len]

theorem outerFold_fills {na nb : Nat} (hna : 1 ≤ na) (hnb : 1 ≤ nb) :
    ∀ (ds : List Nat) (st : MulSt),
      (∀ d ∈ ds, d < st.land.length ∧ d < na + nb - 1) →
      ∀ d', (d' ∈ ds ∨ st.land.getD d' [] ≠ []) →
      ((ds.foldl
        (fun s d => (innerRange na nb d).foldl (fun s2 i => mulBody s2 d i) s)
        st).land.getD d' [] ≠ []) := by
  intro ds
  induction ds with
  | nil =>
    intro st _ d' h
    rcases h with h | h
    · simp at h
    · exact h
  | cons d t IH =>
    intro st hds d' h
    simp only [List.foldl_cons]
    have hlen : (((innerRange na nb d).foldl (fun s2 i => mulBody s2 d i) st).land.length)
        = st.land.length := innerFold_land_len d _ st
    have hds' : ∀ e ∈ t, e < (((innerRange na nb d).foldl
        (fun s2 i => mulBody s2 d i) st).land.length) ∧ e < na + nb - 1 := by
      intro e he
      rw [hlen]
      exact hds e (by simp [he])
    rcases h with h | h
    · rcases List.mem_cons.mp h with rfl | h
      · refine IH _ hds' d' ?_
        right
        exact innerFold_fills d' _ st
          (innerRange_ne_nil hna hnb (hds d' (by simp)).2) (hds d' (by simp)).1
      · exact IH _ hds' d' (Or.inl h)
    · refine IH _ hds' d' ?_
      right
      exact innerFold_land_mono d _ st d' h

theorem multiplier_ok {C : Circuit} (ba bb : List Nat) (h : CircOk C)
    (hba : ∀ w ∈ ba, w < C.length) (hbb : ∀ w ∈ bb, w < C.length) :
    CircOk (multiplier C ba bb).1 := by
  rw [multiplier]
  by_cases hz : ba.length = 0 ∨ bb.length = 0
  · rw [mulLoop_noop hz]
    have hrep : (List.replicate (ba.length + bb.length - 1)
        ([] : List Nat)).map (List.map some) =
        List.replicate (ba.length + bb.length - 1) [] := by
      simp [List.map_replicate]
    simp only [hrep]
    rw [compress_allempty C _ 0 (ba.length + bb.length - 1) (by omega) (by simp)]
    exact h
  · have hna : 1 ≤ ba.length := by omega
    have hnb : 1 ≤ bb.length := by omega
    have hinv0 : MulInv C ba.length bb.length
        ⟨C, ba, bb, List.replicate (ba.length + bb.length - 1) []⟩ :=
      ⟨h, Extends.rfl, hba, hbb, by
        intro col hcol w hw
        rw [List.eq_of_mem_replicate hcol] at hw
        simp at hw, rfl, rfl, by simp⟩
    have hinv := mulLoop_inv hinv0
    obtain ⟨hOk, _, _, _, hland, _, _, hlenl⟩ := hinv
    have hfill : ∀ d < ba.length + bb.length - 1,
        (mulLoop ⟨C, ba, bb, List.replicate (ba.length + bb.length - 1) []⟩
          ba.length bb.length).land.getD d [] ≠ [] := by
      intro d hd
      rw [mulLoop]
      refine outerFold_fills hna hnb _ _ ?_ d (Or.inl (by simpa using hd))
      intro e he
      simp only [List.mem_range] at he
      constructor
      · simpa using he
      · exact he
    refine compress_ok _ _ ?_ ?_ hOk
    · intro col hc
      obtain ⟨c, hcmem, rfl⟩ := List.mem_map.mp hc
      obtain ⟨d, hd, hcd⟩ := List.mem_iff_getElem.mp hcmem
      have : c ≠ [] := by
        have hgd := hfill d (by omega)
        rw [List.getD_eq_getElem _ [] hd, hcd] at hgd
        exact hgd
      simpa using this
    · intro col hc v hv
      obtain ⟨c, hcmem, rfl⟩ := List.mem_map.mp hc
      obtain ⟨w, hwmem, rfl⟩ := List.mem_map.mp hv
      exact ⟨w, rfl, hland c hcmem w hwmem⟩

theorem adder_ok {C : Circuit} (ba bb : List Nat) (h : CircOk C)
    (hba : ∀ w ∈ ba, w < C.length) (hbb : ∀ w ∈ bb, w < C.length) :
    CircOk (adder C ba bb).1 := by
  rw [adder]
  by_cases he : ba.length = bb.length
  · simp only [he, if_pos rfl]
    refine compress_ok _ _ ?_ ?_ h
    · intro col hc
      obtain ⟨p, _, rfl⟩ := List.mem_map.mp hc
      simp
    · intro col hc v hv
      obtain ⟨p, hp, rfl⟩ := List.mem_map.mp hc
      have hmem := List.of_mem_zip hp
      simp only [List.mem_cons, List.not_mem_nil, or_false] at hv
      rcases hv with rfl | rfl
      · exact ⟨p.1, rfl, hba p.1 hmem.1⟩
      · exact ⟨p.2, rfl, hbb p.2 hmem.2⟩
  · simp only [if_neg he]
    exact h

theorem popcount_ok {C : Circuit} (bits : List Nat) (h : CircOk C)
    (hb : ∀ w ∈ bits, w < C.length) : CircOk (popcount C bits).1 := by
  rw [popcount]
  cases bits with
  | nil =>
    rw [show (List.map some [] : List (Option Nat)) = [] from rfl]
    rw [compress_allempty C [[]] 0 1 (by omega) (by simp)]
    exact h
  | cons b t =>
    refine compress_ok _ _ ?_ ?_ h
    · intro col hc
      simp only [List.mem_singleton] at hc
      subst hc
      simp
    · intro col hc v hv
      simp only [List.mem_singleton] at hc
      subst hc
      obtain ⟨w, hwmem, rfl⟩ := List.mem_map.mp hv
      exact ⟨w, rfl, hb w hwmem⟩

theorem count_xaig_cons (g : Gate) (t : Circuit) :
    count_xaig (g :: t) = (if 2 ≤ g.args.length then 1 else 0) + count_xaig t := by
  by_cases hg : 2 ≤ g.args.length <;>
    simp [count_xaig, List.filter_cons, hg] <;> omega

theorem count_aig_cons (g : Gate) (t : Circuit) :
    count_aig (g :: t) =
      (if 2 ≤ g.args.length then (if g.name = "xor" then 3 else 1) else 0)
        + count_aig t := by
  by_cases hg : 2 ≤ g.args.length <;>
    by_cases hx : g.name = "xor" <;>
      simp [count_aig, List.filter_cons, hg, hx]

theorem count_le (C : Circuit) : count_xaig C ≤ count_aig C := by
  induction C with
  | nil => simp [count_xaig, count_aig]
  | cons g t IH =>
    rw [count_xaig_cons, count_aig_cons]
    by_cases hg : 2 ≤ g.args.length
    · simp only [if_pos hg]
      by_cases hx : g.name = "xor" <;> simp [hx] <;> omega
    · simp only [if_neg hg]
      omega

theorem count_eq_iff (C : Circuit) :
    count_aig C = count_xaig C ↔ ∀ g ∈ C, 2 ≤ g.args.length → g.name ≠ "xor" := by
  induction C with
  | nil => simp [count_xaig, count_aig]
  | cons g t IH =>
    rw [count_xaig_cons, count_aig_cons]
    have hle := count_le t
    by_cases hg : 2 ≤ g.args.length
    · by_cases hx : g.name = "xor"
      · simp only [if_pos hg, if_pos hx]
        constructor
        · intro h
          omega
        · intro h
          exact absurd hx (h g (by simp) hg)
      · simp only [if_pos hg, if_neg hx]
        constructor
        · intro h
          intro g' hg' h2
          rcases List.mem_cons.mp hg' with rfl | hg'
          · exact hx
          · exact (IH.mp (by omega)) g' hg' h2
        · intro h
          have := IH.mpr (fun g' hg' h2 => h g' (by simp [hg']) h2)
          omega
    · simp only [if_neg hg]
      constructor
      · intro h
        intro g' hg' h2
        rcases List.mem_cons.mp hg' with rfl | hg'
        · exact absurd h2 hg
        · exact (IH.mp (by omega)) g' hg' h2
      · intro h
        have := IH.mpr (fun g' hg' h2 => h g' (by simp [hg']) h2)
        omega

/-- C1 counterexample: as stated, the claim fails on a column list containing
an empty column: for the columns `[[], [wire 0]]` (wire 0 an input set to
true) the weighted sum over all input wires is 2, but the bit sequence
returned by `compress` starts with an undefined bit, so its integer value is
undefined rather than 2. -/
theorem c1_compress_value_counterexample :
    colsVal [⟨"a0", []⟩] (fun _ => true) [[], [some 0]] = some 2 ∧
    bitsVal (compress [⟨"a0", []⟩] [[], [some 0]]).1 (fun _ => true)
      (compress [⟨"a0", []⟩] [[], [some 0]]).2 ≠ some 2 := by
  constructor
  · decide
  · have h : compress [(⟨"a0", []⟩ : Gate)] [[], [some 0]] =
        ([⟨"a0", []⟩, ⟨"xor", [some 0, none]⟩, ⟨"and", [some 0, none]⟩],
         [none, some 1, some 2]) := by
      simp [compress, addCarry, halfadder, fulladder, gate]
    rw [h]
    decide

/-- C1 (amended: the columns must be nonempty): for every finite list of
nonempty columns, where the column at index w (least-significant first) holds
wires of binary weight w, and for every Boolean assignment to the input wires,
the integer value of the bit sequence returned by compress (LSB-first, output
bit i weighted 2^i) equals the sum over all input wires of (the wire's Boolean
value) times 2^(its column's weight). -/
theorem c1_compress_value (C : Circuit) (env : Nat → Bool)
    (bits : List (List (Option Nat))) (n : Nat)
    (hne : ∀ col ∈ bits, col ≠ []) (hv : colsVal C env bits = some n) :
    bitsVal (compress C bits).1 env (compress C bits).2 = some n :=
  compress_value env C bits n hne hv

/-- Witness for C1: a single column holding one true input wire compresses to
a bit sequence of value 1. -/
theorem c1_compress_value_witness :
    bitsVal (compress [⟨"a0", []⟩] [[some 0]]).1 (fun _ => true)
      (compress [⟨"a0", []⟩] [[some 0]]).2 = some 1 :=
  c1_compress_value [⟨"a0", []⟩] (fun _ => true) [[some 0]] 1
    (by decide) (by decide)

/-- C6: for every netlist produced by any sequence of calls to the public
operators (inputs, adder, popcount, multiplier) on an initially empty netlist,
every gate's operand indices are strictly less than the gate's own index. -/
theorem c6_built_acyclic {C : Circuit} (h : Built C) : CircOk C := by
  induction h with
  | empty => intro i g hg v hv; simp at hg
  | inputs name n _ IH => exact inputs_ok name n IH
  | adder ba bb _ hba hbb IH => exact adder_ok ba bb IH hba hbb
  | popcount bits _ hb IH => exact popcount_ok bits IH hb
  | multiplier ba bb _ hba hbb IH => exact multiplier_ok ba bb IH hba hbb

/-- Witness for C6: a concrete netlist built by inputs followed by popcount is
acyclic. -/
theorem c6_built_acyclic_witness :
    CircOk (popcount (inputs [] "a" 2).1 [0, 1]).1 :=
  c6_built_acyclic (Built.popcount [0, 1]
    (Built.inputs "a" 2 Built.empty) (by decide))

/-- C7: cost_xaig counts exactly the gates with two operands (inputs and
fan-out duplicates contribute nothing), cost_aig charges 3 per two-operand XOR
gate and 1 per other two-operand gate, cost_xaig ≤ cost_aig always, and they
are equal iff the netlist has no two-operand XOR gate.  The hypothesis states
that the netlist is well-formed: gates have at most two operands. -/
theorem c7_cost_model (C : Circuit) (harity : ∀ g ∈ C, g.args.length ≤ 2) :
    count_xaig C = (C.filter (fun g => g.args.length = 2)).length ∧
    count_aig C = ((C.filter (fun g => g.args.length = 2)).map
      (fun g => if g.name = "xor" then 3 else 1)).sum ∧
    count_xaig C ≤ count_aig C ∧
    (count_aig C = count_xaig C ↔ ¬ ∃ g ∈ C, g.args.length = 2 ∧ g.name = "xor") := by
  have hfeq : C.filter (fun g => 2 ≤ g.args.length)
      = C.filter (fun g => g.args.length = 2) := by
    apply List.filter_congr
    intro g hg
    have h2 := harity g hg
    rw [decide_eq_decide]
    omega
  refine ⟨?_, ?_, count_le C, ?_⟩
  · rw [count_xaig, hfeq]
  · rw [count_aig, hfeq]
  · rw [count_eq_iff]
    constructor
    · intro h hcon
      obtain ⟨g, hg, h2, hx⟩ := hcon
      exact h g hg (by omega) hx
    · intro h g hg h2 hx
      have := harity g hg
      exact h ⟨g, hg, by omega, hx⟩

/-- Witness for C7: the netlist of a half adder over two inputs plus a fan-out
duplicate has cost_xaig 2 and cost_aig 4 (one XOR costing 3, one AND costing
1), and the two costs differ since an XOR gate is present. -/
theorem c7_cost_model_witness :
    count_xaig [⟨"a0", []⟩, ⟨"b0", []⟩, ⟨"xor", [some 0, some 1]⟩,
      ⟨"and", [some 0, some 1]⟩, ⟨"a0", [some 0]⟩] =
      ([(⟨"a0", []⟩ : Gate), ⟨"b0", []⟩, ⟨"xor", [some 0, some 1]⟩,
        ⟨"and", [some 0, some 1]⟩, ⟨"a0", [some 0]⟩].filter
          (fun g => g.args.length = 2)).length ∧
    count_aig [⟨"a0", []⟩, ⟨"b0", []⟩, ⟨"xor", [some 0, some 1]⟩,
      ⟨"and", [some 0, some 1]⟩, ⟨"a0", [some 0]⟩] =
      (([(⟨"a0", []⟩ : Gate), ⟨"b0", []⟩, ⟨"xor", [some 0, some 1]⟩,
        ⟨"and", [some 0, some 1]⟩, ⟨"a0", [some 0]⟩].filter
          (fun g => g.args.length = 2)).map
        (fun g => if g.name = "xor" then 3 else 1)).sum ∧
    count_xaig [⟨"a0", []⟩, ⟨"b0", []⟩, ⟨"xor", [some 0, some 1]⟩,
      ⟨"and", [some 0, some 1]⟩, ⟨"a0", [some 0]⟩] ≤
      count_aig [⟨"a0", []⟩, ⟨"b0", []⟩, ⟨"xor", [some 0, some 1]⟩,
        ⟨"and", [some 0, some 1]⟩, ⟨"a0", [some 0]⟩] ∧
    (count_aig [⟨"a0", []⟩, ⟨"b0", []⟩, ⟨"xor", [some 0, some 1]⟩,
        ⟨"and", [some 0, some 1]⟩, ⟨"a0", [some 0]⟩] =
      count_xaig [⟨"a0", []⟩, ⟨"b0", []⟩, ⟨"xor", [some 0, some 1]⟩,
        ⟨"and", [some 0, some 1]⟩, ⟨"a0", [some 0]⟩] ↔
      ¬ ∃ g ∈ [(⟨"a0", []⟩ : Gate), ⟨"b0", []⟩, ⟨"xor", [some 0, some 1]⟩,
        ⟨"and", [some 0, some 1]⟩, ⟨"a0", [some 0]⟩],
          g.args.length = 2 ∧ g.name = "xor") :=
  c7_cost_model _ (by decide)

/-- C8: adder on operand lists of unequal length fails synchronously with the
netlist exactly as before the call (no gate appended); on equal-length lists
no such failure occurs. -/
theorem c8_adder_mismatch (C : Circuit) (ba bb : List Nat) :
    (ba.length ≠ bb.length → adder C ba bb = (C, none)) ∧
    (ba.length = bb.length → ∃ out, (adder C ba bb).2 = some out) := by
  constructor
  · intro h
    simp [adder, h]
  · intro h
    refine ⟨(compress C ((ba.zip bb).map (fun p => [some p.1, some p.2]))).2, ?_⟩
    simp [adder, h]

/-- Witness for C8: a one-bit list against an empty list fails and leaves the
one-gate netlist untouched; two equal-length lists succeed. -/
theorem c8_adder_mismatch_witness :
    adder [⟨"a0", []⟩] [0] [] = ([⟨"a0", []⟩], none) ∧
    ∃ out, (adder [⟨"a0", []⟩] [0] [0]).2 = some out :=
  ⟨(c8_adder_mismatch [⟨"a0", []⟩] [0] []).1 (by decide),
   (c8_adder_mismatch [⟨"a0", []⟩] [0] [0]).2 rfl⟩

/-- C9 counterexample: a single empty column does not produce an empty output
sequence: the fallback branch pushes the undefined sum and carry, so compress
returns the two-element sequence of undefined bits. -/
theorem c9_empty_column_counterexample :
    compress ([] : Circuit) [[]] = ([], [none, none]) ∧
    (compress ([] : Circuit) [[]]).2 ≠ [] := by
  constructor
  · simp [compress, addCarry]
  · simp [compress, addCarry]

/-- C9 (amended): a column with 0 wires takes the fallback branch: an
undefined bit is pushed into the column and an undefined carry into the next
weight, so compress applied to a single empty column appends no gate and
returns the two-element output sequence [undefined, undefined] rather than an
empty sequence. -/
theorem c9_empty_column (C : Circuit) :
    compress C [[]] = (C, [none, none]) := by
  simp [compress, addCarry]

/-- C5 counterexample: the full adder performs five netlist appends (two per
half adder plus the OR), not four as claimed. -/
theorem c5_adders_counterexample :
    (fulladder [⟨"x0", []⟩, ⟨"y0", []⟩, ⟨"z0", []⟩]
      (some 0) (some 1) (some 2)).1.length = 8 ∧
    [(⟨"x0", []⟩ : Gate), ⟨"y0", []⟩, ⟨"z0", []⟩].length + 4 ≠ 8 := by
  decide

/-- C5 (amended: the full adder performs five appends, not four): the half
adder appends exactly the gates sum = XOR(x,y) and carry = AND(x,y) (two
appends) with sum + 2·carry = x + y; the full adder is two chained half adders
whose carry is the OR of the two half-adder carries (five appends total), with
s2 + 2·carry = x + y + z. -/
theorem c5_adders (C : Circuit) (env : Nat → Bool) {a b c : Nat}
    {va vb vc : Bool} (hva : evalWire C env a = some va)
    (hvb : evalWire C env b = some vb) (hvc : evalWire C env c = some vc) :
    (halfadder C (some a) (some b)).1 =
      C ++ [⟨"xor", [some a, some b]⟩, ⟨"and", [some a, some b]⟩] ∧
    (halfadder C (some a) (some b)).1.length = C.length + 2 ∧
    evalWire (halfadder C (some a) (some b)).1 env
      (halfadder C (some a) (some b)).2.1 = some (xor va vb) ∧
    evalWire (halfadder C (some a) (some b)).1 env
      (halfadder C (some a) (some b)).2.2 = some (va && vb) ∧
    ((xor va vb).toNat + 2 * (va && vb).toNat = va.toNat + vb.toNat) ∧
    (fulladder C (some a) (some b) (some c)).1 =
      C ++ [⟨"xor", [some a, some b]⟩, ⟨"and", [some a, some b]⟩,
            ⟨"xor", [some C.length, some c]⟩, ⟨"and", [some C.length, some c]⟩,
            ⟨"or", [some (C.length + 1), some (C.length + 3)]⟩] ∧
    (fulladder C (some a) (some b) (some c)).1.length = C.length + 5 ∧
    evalWire (fulladder C (some a) (some b) (some c)).1 env
      (fulladder C (some a) (some b) (some c)).2.1 = some (xor (xor va vb) vc) ∧
    evalWire (fulladder C (some a) (some b) (some c)).1 env
      (fulladder C (some a) (some b) (some c)).2.2
      = some ((va && vb) || (xor va vb && vc)) ∧
    ((xor (xor va vb) vc).toNat + 2 * ((va && vb) || (xor va vb && vc)).toNat
      = va.toNat + vb.toNat + vc.toNat) := by
  obtain ⟨hh1, hh2, hh3, hh4, hh5⟩ := halfadder_spec C env hva hvb
  obtain ⟨hf1, hf2, hf3, hf4, hf5⟩ := fulladder_spec C env hva hvb hvc
  refine ⟨hh1, by rw [hh1]; simp, hh4, hh5, bool_halfadder_sum va vb,
    hf1, by rw [hf1]; simp, ?_, ?_, bool_fulladder_sum va vb vc⟩
  · rw [hf2]
    exact hf4
  · rw [hf3]
    exact hf5

/-- Witness for C5: three true inputs give sum bit true and carry true
(1 + 2·1 = 3 = 1 + 1 + 1). -/
theorem c5_adders_witness :
    evalWire (fulladder [⟨"x0", []⟩, ⟨"y0", []⟩, ⟨"z0", []⟩]
        (some 0) (some 1) (some 2)).1 (fun _ => true)
      (fulladder [⟨"x0", []⟩, ⟨"y0", []⟩, ⟨"z0", []⟩]
        (some 0) (some 1) (some 2)).2.1 = some true ∧
    evalWire (fulladder [⟨"x0", []⟩, ⟨"y0", []⟩, ⟨"z0", []⟩]
        (some 0) (some 1) (some 2)).1 (fun _ => true)
      (fulladder [⟨"x0", []⟩, ⟨"y0", []⟩, ⟨"z0", []⟩]
        (some 0) (some 1) (some 2)).2.2 = some true := by
  have h := @c5_adders [⟨"x0", []⟩, ⟨"y0", []⟩, ⟨"z0", []⟩] (fun _ => true)
    0 1 2 true true true (by decide) (by decide) (by decide)
  exact ⟨by simpa using h.2.2.2.2.2.2.2.1, by simpa using h.2.2.2.2.2.2.2.2.1⟩

theorem colsVal_zip_pairs (C : Circuit) (env : Nat → Bool) :
    ∀ (wa : List Nat) (va : List Bool) (wb : List Nat) (vb : List Bool),
      List.Forall₂ (fun w v => evalWire C env w = some v) wa va →
      List.Forall₂ (fun w v => evalWire C env w = some v) wb vb →
      wa.length = wb.length →
      colsVal C env ((wa.zip wb).map (fun p => [some p.1, some p.2]))
        = some (bitsToNat va + bitsToNat vb) := by
  intro wa va
  induction va generalizing wa with
  | nil =>
    intro wb vb ha hb hlen
    cases ha
    cases wb with
    | nil =>
      cases hb
      simp [colsVal, bitsToNat]
    | cons w2 wb' => simp at hlen
  | cons v va' IH =>
    intro wb vb ha hb hlen
    cases ha with
    | cons hwv ha' =>
      rename_i w wa'
      cases wb with
      | nil => simp at hlen
      | cons w2 wb' =>
        cases hb with
        | cons hw2v2 hb' =>
          rename_i v2 vb'
          have hrec := IH wa' wb' vb' ha' hb' (by simpa using hlen)
          have hcol : colVal C env [some w, some w2] = some (v.toNat + v2.toNat) := by
            simp [colVal, hwv, hw2v2]
          simp only [List.zip_cons_cons, List.map_cons]
          rw [colsVal_cons_mk hcol hrec]
          simp only [Option.some.injEq, bitsToNat]
          omega

theorem zipcols_map_length (wa wb : List Nat) :
    (((wa.zip wb).map (fun p => [some p.1, some p.2])).map List.length :
      List Nat) = List.replicate (wa.zip wb).length 2 := by
  induction wa generalizing wb with
  | nil => simp
  | cons w wa' IH =>
    cases wb with
    | nil => simp
    | cons w2 wb' =>
      simp only [List.zip_cons_cons, List.map_cons, List.length_cons,
        List.replicate_succ, List.cons.injEq]
      exact ⟨by simp, IH wb'⟩

theorem shapeLen_3cons : ∀ m : Nat, shapeLen (3 :: List.replicate m 2) = m + 2 := by
  intro m
  induction m with
  | zero =>
    rw [List.replicate_zero]
    rw [show (3 : Nat) = 0 + 3 from rfl, shapeLen_ge3]
    simp only [addCarryLen]
    rw [shapeLen_one, shapeLen_one, shapeLen_nil]
  | succ t IH =>
    rw [List.replicate_succ]
    rw [show (3 : Nat) = 0 + 3 from rfl, shapeLen_ge3]
    simp only [addCarryLen]
    rw [shapeLen_one, IH]
    omega

theorem shapeLen_replicate2 (n : Nat) (h : 1 ≤ n) :
    shapeLen (List.replicate n 2) = n + 1 := by
  cases n with
  | zero => omega
  | succ m =>
    cases m with
    | zero =>
      rw [List.replicate_succ, List.replicate_zero]
      rw [shapeLen_two]
      simp only [addCarryLen]
      rw [shapeLen_one, shapeLen_one, shapeLen_nil]
    | succ t =>
      rw [List.replicate_succ, List.replicate_succ]
      rw [shapeLen_two]
      simp only [addCarryLen]
      rw [shapeLen_one, shapeLen_3cons]
      omega

/-- C2 counterexample: with n = 0 (two empty, equal-length wire lists encoding
A = B = 0 < 2^0), the adder succeeds but returns an empty output, not an
(n+1) = 1-bit result. -/
theorem c2_adder_roundtrip_counterexample :
    (adder ([] : Circuit) [] []).2 = some [] ∧
    (adder ([] : Circuit) [] []).2.map List.length ≠ some (([] : List Nat).length + 1) := by
  have h : adder ([] : Circuit) [] [] = ([], some []) := by
    rw [adder]
    simp only [List.length_nil, if_pos rfl]
    rw [show (([] : List Nat).zip ([] : List Nat)).map
      (fun p => [some p.1, some p.2]) = [] from rfl]
    rw [compress_nil]
    simp
  rw [h]
  simp

/-- C2 (amended: for bit width n ≥ 1): for all n-bit unsigned integers A, B
with A, B < 2^n, calling adder with two equal-length wire lists encoding A and
B (LSB-first, A = bitsToNat va, B = bitsToNat vb) and evaluating its output
bits as an LSB-first unsigned integer yields exactly A + B, and the carry-out
bit makes the output an (n+1)-bit result. -/
theorem c2_adder_roundtrip (C : Circuit) (env : Nat → Bool) (wa wb : List Nat)
    (va vb : List Bool)
    (ha : List.Forall₂ (fun w v => evalWire C env w = some v) wa va)
    (hb : List.Forall₂ (fun w v => evalWire C env w = some v) wb vb)
    (hlen : wa.length = wb.length) (hpos : 1 ≤ wa.length) :
    (adder C wa wb).2.bind (bitsVal (adder C wa wb).1 env)
      = some (bitsToNat va + bitsToNat vb) ∧
    (adder C wa wb).2.map List.length = some (wa.length + 1) := by
  have hadder : adder C wa wb =
      ((compress C ((wa.zip wb).map (fun p => [some p.1, some p.2]))).1,
       some ((compress C ((wa.zip wb).map (fun p => [some p.1, some p.2]))).2)) := by
    rw [adder, if_pos hlen]
  have hcols := colsVal_zip_pairs C env wa va wb vb ha hb hlen
  have hne : ∀ col ∈ (wa.zip wb).map (fun p => [some p.1, some p.2]), col ≠ [] := by
    intro col hc
    obtain ⟨p, _, rfl⟩ := List.mem_map.mp hc
    simp
  constructor
  · rw [hadder]
    simp only [Option.some_bind]
    exact compress_value env C _ _ hne hcols
  · rw [hadder]
    simp only [Option.map_some', Option.some.injEq]
    rw [compress_len, zipcols_map_length, List.length_zip, hlen, Nat.min_self]
    exact shapeLen_replicate2 wb.length (hlen ▸ hpos)

/-- Witness for C2: adding the 1-bit numbers 1 and 1 yields value 2 in a
2-bit output. -/
theorem c2_adder_roundtrip_witness :
    (adder [⟨"a0", []⟩, ⟨"b0", []⟩] [0] [1]).2.bind
      (bitsVal (adder [⟨"a0", []⟩, ⟨"b0", []⟩] [0] [1]).1 (fun _ => true))
      = some 2 ∧
    (adder [⟨"a0", []⟩, ⟨"b0", []⟩] [0] [1]).2.map List.length = some 2 := by
  have h := c2_adder_roundtrip [⟨"a0", []⟩, ⟨"b0", []⟩] (fun _ => true) [0] [1]
    [true] [true]
    (List.Forall₂.cons (by decide) List.Forall₂.nil)
    (List.Forall₂.cons (by decide) List.Forall₂.nil)
    rfl (by decide)
  exact ⟨by simpa [bitsToNat] using h.1, by simpa using h.2⟩

theorem colVal_cons_mk {C : Circuit} {env : Nat → Bool} {i : Nat} {b : Bool}
    {ws : List (Option Nat)} {r : Nat}
    (hw : evalWire C env i = some b) (h : colVal C env ws = some r) :
    colVal C env (some i :: ws) = some (b.toNat + r) := by
  simp [colVal, hw, h]

theorem colVal_count (C : Circuit) (env : Nat → Bool) :
    ∀ (ws : List Nat) (vs : List Bool),
      List.Forall₂ (fun w v => evalWire C env w = some v) ws vs →
      colVal C env (ws.map some) = some (vs.count true) := by
  intro ws vs h
  induction h with
  | nil => simp [colVal]
  | cons hwv htail IH =>
    rename_i w v ws' vs'
    simp only [List.map_cons]
    rw [colVal_cons_mk hwv IH]
    cases v <;> simp [List.count_cons] <;> omega

theorem shapeLen_single_eq_clog (n : Nat) (h1 : 1 ≤ n) (h16 : n ≤ 16) :
    shapeLen [n] = Nat.clog 2 (n + 1) := by
  interval_cases n <;>
    simp [shapeLen, addCarryLen, Nat.clog_of_two_le, Nat.clog_of_right_le_one]

/-- C4: for every bit vector of length n with 1 ≤ n ≤ 16, evaluating the
popcount output bits (LSB-first) as an unsigned integer equals the number of
set input bits, and the output consists of exactly ⌈log2(n+1)⌉ bits. -/
theorem c4_popcount (C : Circuit) (env : Nat → Bool) (ws : List Nat)
    (vs : List Bool)
    (h : List.Forall₂ (fun w v => evalWire C env w = some v) ws vs)
    (h1 : 1 ≤ ws.length) (h16 : ws.length ≤ 16) :
    bitsVal (popcount C ws).1 env (popcount C ws).2 = some (vs.count true) ∧
    (popcount C ws).2.length = Nat.clog 2 (ws.length + 1) := by
  constructor
  · rw [popcount]
    refine compress_value env C _ _ ?_ ?_
    · intro col hc
      simp only [List.mem_singleton] at hc
      subst hc
      intro hcon
      rw [List.map_eq_nil_iff] at hcon
      subst hcon
      simp at h1
    · have hcol := colVal_count C env ws vs h
      have := colsVal_cons_mk hcol (show colsVal C env [] = some 0 from rfl)
      simpa using this
  · rw [popcount, compress_len]
    simp only [List.map_cons, List.map_nil, List.length_map]
    exact shapeLen_single_eq_clog ws.length h1 h16

/-- Witness for C4: the input vector 1,0,1,1,0 has popcount 3, spread over
⌈log2 6⌉ = 3 output bits. -/
theorem c4_popcount_witness :
    bitsVal (popcount [⟨"a0", []⟩, ⟨"a1", []⟩, ⟨"a2", []⟩, ⟨"a3", []⟩, ⟨"a4", []⟩]
        [0, 1, 2, 3, 4]).1 (fun i => i == 0 || i == 2 || i == 3)
      (popcount [⟨"a0", []⟩, ⟨"a1", []⟩, ⟨"a2", []⟩, ⟨"a3", []⟩, ⟨"a4", []⟩]
        [0, 1, 2, 3, 4]).2 = some 3 ∧
    (popcount [⟨"a0", []⟩, ⟨"a1", []⟩, ⟨"a2", []⟩, ⟨"a3", []⟩, ⟨"a4", []⟩]
        [0, 1, 2, 3, 4]).2.length = 3 := by
  have h := c4_popcount [⟨"a0", []⟩, ⟨"a1", []⟩, ⟨"a2", []⟩, ⟨"a3", []⟩, ⟨"a4", []⟩]
    (fun i => i == 0 || i == 2 || i == 3) [0, 1, 2, 3, 4]
    [true, false, true, true, false]
    (List.Forall₂.cons (by decide) (List.Forall₂.cons (by decide)
      (List.Forall₂.cons (by decide) (List.Forall₂.cons (by decide)
        (List.Forall₂.cons (by decide) List.Forall₂.nil)))))
    (by decide) (by decide)
  refine ⟨by simpa using h.1, ?_⟩
  have h2 := h.2
  rw [show Nat.clog 2 ([0, 1, 2, 3, 4].length + 1) = 3 by
    simp [Nat.clog_of_two_le, Nat.clog_of_right_le_one]] at h2
  exact h2

theorem take_set_of_le {α : Type} :
    ∀ (l : List α) (i m : Nat), m ≤ i → ∀ (a : α), (l.set i a).take m = l.take m := by
  intro l
  induction l with
  | nil => intro i m _ a; simp
  | cons x xs IH =>
    intro i m hm a
    cases i with
    | zero =>
      have hm0 : m = 0 := by omega
      subst hm0
      simp
    | succ k =>
      cases m with
      | zero => simp
      | succ t =>
        simp only [List.set_cons_succ, List.take_succ_cons, List.cons.injEq,
          true_and]
        exact IH k t (by omega) a

theorem mulBodyStore_take {la lb N : Nat} (hla : N ≤ la) (hlb : N ≤ lb)
    (st : Circuit × List (List Nat) × List (List Nat)) (d i : Nat) :
    ((mulBodyStore la lb st d i).2.1).take N = st.2.1.take N := by
  simp only [mulBodyStore]
  rw [take_set_of_le _ lb N hlb, take_set_of_le _ la N hla]

theorem storeFold_take {la lb N : Nat} (hla : N ≤ la) (hlb : N ≤ lb)
    (na nb : Nat) :
    ∀ (ds : List Nat) (st : Circuit × List (List Nat) × List (List Nat)),
      ((ds.foldl (fun s d => (innerRange na nb d).foldl
          (fun s2 i => mulBodyStore la lb s2 d i) s) st).2.1).take N
        = st.2.1.take N := by
  have hinner : ∀ (d : Nat) (l : List Nat)
      (st : Circuit × List (List Nat) × List (List Nat)),
      ((l.foldl (fun s2 i => mulBodyStore la lb s2 d i) st).2.1).take N
        = st.2.1.take N := by
    intro d l
    induction l with
    | nil => intro st; rfl
    | cons i t IH =>
      intro st
      simp only [List.foldl_cons]
      rw [IH, mulBodyStore_take hla hlb]
  intro ds
  induction ds with
  | nil => intro st; rfl
  | cons d t IH =>
    intro st
    simp only [List.foldl_cons]
    rw [IH, hinner]

/-- C10: multiplier never mutates the caller's operand arrays.  In the store
semantics (arrays as heap objects addressed by store index) the source first
appends fresh copies of the two operand arrays to the store and rebinds its
locals to them, so the loop's writes land in the copies: after the call every
array the caller could reference — the prefix of the store that existed before
the call, including the operand arrays themselves — is exactly as before. -/
theorem c10_multiplier_frame (C : Circuit) (store : List (List Nat)) (ra rb : Nat) :
    (multiplierStore C store ra rb).2.take store.length = store := by
  rw [multiplierStore]
  simp only
  rw [storeFold_take (by omega) (by omega)]
  simp only
  exact @List.take_left _ store [store.getD ra [], store.getD rb []]

theorem bool_and_toNat (x y : Bool) : (x && y).toNat = x.toNat * y.toNat := by
  cases x <;> cases y <;> rfl

theorem forall₂_eval_ext {C C' : Circuit} (hext : Extends C C') {env : Nat → Bool} :
    ∀ {ws : List Nat} {vs : List Bool},
      List.Forall₂ (fun w v => evalWire C env w = some v) ws vs →
      List.Forall₂ (fun w v => evalWire C' env w = some v) ws vs := by
  intro ws vs h
  induction h with
  | nil => exact List.Forall₂.nil
  | cons hwv htail IH =>
    refine List.Forall₂.cons ?_ IH
    rw [evalWire_ext hext env (evalWire_isSome_lt hwv)]
    exact hwv

theorem forall₂_eval_getD {C : Circuit} {env : Nat → Bool} {ws : List Nat}
    {vs : List Bool} (h : List.Forall₂ (fun w v => evalWire C env w = some v) ws vs)
    {i : Nat} (hi : i < ws.length) :
    evalWire C env (ws.getD i 0) = some (vs.getD i false) := by
  have hlen := h.length_eq
  rw [List.getD_eq_getElem ws 0 hi, List.getD_eq_getElem vs false (by omega)]
  have := (List.forall₂_iff_get.mp h).2 i hi (by omega)
  simpa using this

theorem forall₂_set {C : Circuit} {env : Nat → Bool} :
    ∀ {ws : List Nat} {vs : List Bool},
      List.Forall₂ (fun w v => evalWire C env w = some v) ws vs →
      ∀ {i : Nat} {w : Nat}, evalWire C env w = some (vs.getD i false) →
      List.Forall₂ (fun w v => evalWire C env w = some v) (ws.set i w) vs := by
  intro ws vs h
  induction h with
  | nil => intro i w _; exact List.Forall₂.nil
  | cons hwv htail IH =>
    intro i w hw
    cases i with
    | zero => exact List.Forall₂.cons (by simpa using hw) htail
    | succ k =>
      exact List.Forall₂.cons hwv (IH (by simpa using hw))

theorem colsVal_land_set {C : Circuit} {env : Nat → Bool} {p : Nat} {bp : Bool}
    (hp : evalWire C env p = some bp) :
    ∀ (land : List (List Nat)) (d S : Nat), d < land.length →
      colsVal C env (land.map (List.map some)) = some S →
      colsVal C env ((land.set d ((land.getD d []) ++ [p])).map (List.map some))
        = some (S + 2 ^ d * bp.toNat) := by
  intro land
  induction land with
  | nil => intro d S hd; simp at hd
  | cons c t IH =>
    intro d S hd hval
    simp only [List.map_cons] at hval
    obtain ⟨a, r, ha, hr, rfl⟩ := colsVal_cons_inv hval
    cases d with
    | zero =>
      simp only [List.set_cons_zero, List.getD_cons_zero, List.map_cons,
        List.map_append, List.map_cons, List.map_nil]
      have hcol : colVal C env (c.map some ++ [some p]) = some (a + bp.toNat) :=
        colVal_append _ _ _ _ ha (colVal_singleton hp)
      rw [colsVal_cons_mk hcol hr]
      simp only [Option.some.injEq]
      ring
    | succ e =>
      simp only [List.set_cons_succ, List.getD_cons_succ, List.map_cons]
      have hrec := IH e r (by simpa using hd) hr
      rw [colsVal_cons_mk ha hrec]
      simp only [Option.some.injEq]
      rw [pow_succ]
      ring

theorem colsVal_replicate_nil (C : Circuit) (env : Nat → Bool) (n : Nat) :
    colsVal C env ((List.replicate n ([] : List Nat)).map (List.map some))
      = some 0 := by
  induction n with
  | zero => rfl
  | succ m IH =>
    rw [List.replicate_succ]
    simp only [List.map_cons, List.map_nil]
    have := colsVal_cons_mk (show colVal C env [] = some 0 from rfl) IH
    simpa using this

theorem dupTriples_append {base : Nat} :
    ∀ {D : List Gate}, DupTriples base D → ∀ {L : Nat}, base + D.length = L →
      ∀ {g1 g2 : Gate}, g1.args.length = 1 → g2.args.length = 1 →
      DupTriples base (D ++ [g1, g2, ⟨"and", [some L, some (L + 1)]⟩]) := by
  intro D h
  induction h with
  | nil b =>
    intro L hL g1 g2 h1 h2
    simp only [List.length_nil, Nat.add_zero] at hL
    subst hL
    simpa using DupTriples.cons b g1 g2 [] h1 h2 (DupTriples.nil _)
  | cons b ga gb rest hga hgb htail IH =>
    intro L hL g1 g2 h1 h2
    have hL' : (b + 3) + rest.length = L := by
      simp only [List.length_cons] at hL
      omega
    have := IH hL' h1 h2
    simpa using DupTriples.cons b ga gb _ hga hgb this

theorem bitsToNat_eq_sum :
    ∀ (vs : List Bool), bitsToNat vs =
      Finset.sum (Finset.range vs.length)
        (fun i => (vs.getD i false).toNat * 2 ^ i) := by
  intro vs
  induction vs with
  | nil => simp [bitsToNat]
  | cons v t IH =>
    simp only [bitsToNat, List.length_cons, IH]
    rw [Finset.sum_range_succ']
    simp only [List.getD_cons_succ, List.getD_cons_zero, pow_zero, Nat.mul_one]
    rw [Finset.mul_sum]
    rw [Finset.sum_congr rfl (fun i (_ : i ∈ Finset.range t.length) =>
      show 2 * ((t.getD i false).toNat * 2 ^ i)
          = (t.getD i false).toNat * 2 ^ (i + 1) by ring)]
    omega

theorem mulBody_val {env : Nat → Bool} {va vb : List Bool} {base : Nat}
    {st : MulSt} {S : Nat} (h : LoopVal env va vb base st S)
    {d i : Nat} (hi : i < va.length) (hj : d - i < vb.length)
    (hd : d < va.length + vb.length - 1) :
    LoopVal env va vb base (mulBody st d i)
      (S + 2 ^ d * (va.getD i false && vb.getD (d - i) false).toNat) := by
  obtain ⟨ha, hb, hval, hlenl, hbase, htrip⟩ := h
  obtain ⟨hc, hla', hlb', hland'⟩ := mulBody_circ st d i
  have hlena : st.la.length = va.length := ha.length_eq
  have hlenb : st.lb.length = vb.length := hb.length_eq
  have hea : evalWire st.C env (st.la.getD i 0) = some (va.getD i false) :=
    forall₂_eval_getD ha (by omega)
  have heb : evalWire st.C env (st.lb.getD (d - i) 0)
      = some (vb.getD (d - i) false) := forall₂_eval_getD hb (by omega)
  have halt : st.la.getD i 0 < st.C.length := evalWire_isSome_lt hea
  have hblt : st.lb.getD (d - i) 0 < st.C.length := evalWire_isSome_lt heb
  have hext : Extends st.C (mulBody st d i).C := ⟨_, hc⟩
  have hclen : (mulBody st d i).C.length = st.C.length + 3 := by
    rw [hc]; simp
  have hg0 : (mulBody st d i).C[st.C.length]? =
      some ⟨nameAt st.C (st.la.getD i 0), [some (st.la.getD i 0)]⟩ := by
    rw [hc]
    exact getElem?_append_add st.C _ 0
  have hg1 : (mulBody st d i).C[st.C.length + 1]? =
      some ⟨nameAt (st.C ++ [⟨nameAt st.C (st.la.getD i 0), [some (st.la.getD i 0)]⟩])
          (st.lb.getD (d - i) 0), [some (st.lb.getD (d - i) 0)]⟩ := by
    rw [hc]
    exact getElem?_append_add st.C _ 1
  have hg2 : (mulBody st d i).C[st.C.length + 2]? =
      some ⟨"and", [some st.C.length, some (st.C.length + 1)]⟩ := by
    rw [hc]
    exact getElem?_append_add st.C _ 2
  have e0 : evalWire (mulBody st d i).C env st.C.length
      = some (va.getD i false) := by
    refine evalWire_one hg0 halt ?_
    rw [evalWire_ext hext env halt]
    exact hea
  have e1 : evalWire (mulBody st d i).C env (st.C.length + 1)
      = some (vb.getD (d - i) false) := by
    refine evalWire_one hg1 (by omega) ?_
    rw [evalWire_ext hext env hblt]
    exact heb
  have e2 : evalWire (mulBody st d i).C env (st.C.length + 2)
      = some (va.getD i false && vb.getD (d - i) false) := by
    rw [evalWire_two hg2 (by omega) (by omega) e0 e1]
    rw [if_pos rfl]
  refine ⟨?_, ?_, ?_, ?_, ?_, ?_⟩
  · rw [hla']
    exact forall₂_set (forall₂_eval_ext hext ha) e0
  · rw [hlb']
    exact forall₂_set (forall₂_eval_ext hext hb) e1
  · rw [hland']
    have hvalext := colsVal_ext hext env _ S hval
    have := colsVal_land_set e2 st.land d S (by omega) hvalext
    exact this
  · rw [hland']
    simp [hlenl]
  · omega
  · rw [hc, List.drop_append_of_le_length hbase]
    refine dupTriples_append htrip ?_ rfl rfl
    rw [List.length_drop]
    omega

theorem innerFold_val {env : Nat → Bool} {va vb : List Bool} {base : Nat} (d : Nat) :
    ∀ (l : List Nat) (st : MulSt) (S : Nat), LoopVal env va vb base st S →
      (∀ i ∈ l, i < va.length ∧ d - i < vb.length) →
      d < va.length + vb.length - 1 →
      LoopVal env va vb base (l.foldl (fun s2 i => mulBody s2 d i) st)
        (S + 2 ^ d * ((l.map (fun i =>
          (va.getD i false && vb.getD (d - i) false).toNat)).sum)) := by
  intro l
  induction l with
  | nil =>
    intro st S h _ _
    simpa using h
  | cons i t IH =>
    intro st S h hl hd
    simp only [List.foldl_cons, List.map_cons, List.sum_cons]
    have h1 := mulBody_val h (hl i (by simp)).1 (hl i (by simp)).2 hd
    have h2 := IH _ _ h1 (fun i' hi' => hl i' (by simp [hi'])) hd
    have harith : S + 2 ^ d * (va.getD i false && vb.getD (d - i) false).toNat
        + 2 ^ d * ((t.map (fun i =>
          (va.getD i false && vb.getD (d - i) false).toNat)).sum)
        = S + 2 ^ d * ((va.getD i false && vb.getD (d - i) false).toNat
          + (t.map (fun i =>
            (va.getD i false && vb.getD (d - i) false).toNat)).sum) := by
      ring
    rw [harith] at h2
    exact h2

theorem outerFold_val {env : Nat → Bool} {va vb : List Bool} {base : Nat} :
    ∀ (ds : List Nat) (st : MulSt) (S : Nat), LoopVal env va vb base st S →
      (∀ d ∈ ds, d < va.length + vb.length - 1) →
      LoopVal env va vb base
        (ds.foldl (fun s d => (innerRange va.length vb.length d).foldl
          (fun s2 i => mulBody s2 d i) s) st)
        (S + ((ds.map (fun d => 2 ^ d * ((innerRange va.length vb.length d).map
          (fun i => (va.getD i false && vb.getD (d - i) false).toNat)).sum)).sum)) := by
  intro ds
  induction ds with
  | nil =>
    intro st S h _
    simpa using h
  | cons d t IH =>
    intro st S h hds
    simp only [List.foldl_cons, List.map_cons, List.sum_cons]
    have hb1 : ∀ i ∈ innerRange va.length vb.length d,
        i < va.length ∧ d - i < vb.length := by
      intro i hi
      have := innerRange_bounds va.length vb.length d i hi
      exact ⟨this.1, this.2.1⟩
    have h1 := innerFold_val d (innerRange va.length vb.length d) st S h hb1
      (hds d (by simp))
    have h2 := IH _ _ h1 (fun d' hd' => hds d' (by simp [hd']))
    have harith : S + 2 ^ d * ((innerRange va.length vb.length d).map
          (fun i => (va.getD i false && vb.getD (d - i) false).toNat)).sum
        + ((t.map (fun d => 2 ^ d * ((innerRange va.length vb.length d).map
          (fun i => (va.getD i false && vb.getD (d - i) false).toNat)).sum)).sum)
        = S + (2 ^ d * ((innerRange va.length vb.length d).map
          (fun i => (va.getD i false && vb.getD (d - i) false).toNat)).sum
          + ((t.map (fun d => 2 ^ d * ((innerRange va.length vb.length d).map
            (fun i => (va.getD i false && vb.getD (d - i) false).toNat)).sum)).sum)) := by
      ring
    rw [harith] at h2
    exact h2

theorem sum_map_range (f : Nat → Nat) (n : Nat) :
    ((List.range n).map f).sum = Finset.sum (Finset.range n) f := by
  induction n with
  | zero => simp
  | succ m IH =>
    rw [List.range_succ, List.map_append, List.sum_append, Finset.sum_range_succ, IH]
    simp

theorem sum_map_range' (f : Nat → Nat) :
    ∀ (len lo : Nat), ((List.range' lo len).map f).sum
      = Finset.sum (Finset.range len) (fun k => f (lo + k)) := by
  intro len
  induction len with
  | zero => intro lo; simp
  | succ m IH =>
    intro lo
    rw [List.range'_succ, List.map_cons, List.sum_cons, IH (lo + 1)]
    rw [Finset.sum_range_succ']
    rw [Finset.sum_congr rfl (fun k (_ : k ∈ Finset.range m) =>
      show f (lo + 1 + k) = f (lo + (k + 1)) by rw [Nat.add_right_comm, Nat.add_assoc])]
    simp only [Nat.add_zero]
    omega

theorem diag_sum_eq (na nb : Nat) (hna : 1 ≤ na) (hnb : 1 ≤ nb)
    (a b : Nat → Nat) (haz : ∀ i, na ≤ i → a i = 0) (hbz : ∀ j, nb ≤ j → b j = 0) :
    Finset.sum (Finset.range (na + nb - 1)) (fun d =>
      2 ^ d * Finset.sum (Finset.range (min na (d + 1) - (d + 1 - nb)))
        (fun k => a ((d + 1 - nb) + k) * b (d - ((d + 1 - nb) + k))))
    = (Finset.sum (Finset.range na) (fun i => a i * 2 ^ i))
      * (Finset.sum (Finset.range nb) (fun j => b j * 2 ^ j)) := by
  have stepAB : ∀ d, Finset.sum (Finset.range (min na (d + 1) - (d + 1 - nb)))
      (fun k => a ((d + 1 - nb) + k) * b (d - ((d + 1 - nb) + k)))
      = Finset.sum (Finset.range (d + 1)) (fun i => a i * b (d - i)) := by
    intro d
    rw [← Finset.sum_Ico_eq_sum_range (fun i => a i * b (d - i)) (d + 1 - nb)
      (min na (d + 1))]
    refine Finset.sum_subset ?_ ?_
    · intro i hi
      simp only [Finset.mem_Ico] at hi
      simp only [Finset.mem_range]
      omega
    · intro i hi hni
      simp only [Finset.mem_range] at hi
      simp only [Finset.mem_Ico, not_and, not_lt] at hni
      by_cases hlo : d + 1 - nb ≤ i
      · have hge : min na (d + 1) ≤ i := hni hlo
        have : na ≤ i := by omega
        rw [haz i this]
        simp
      · have : nb ≤ d - i := by omega
        rw [hbz _ this]
        simp
  have stepC : Finset.sum (Finset.range (na + nb - 1)) (fun d =>
      2 ^ d * Finset.sum (Finset.range (d + 1)) (fun i => a i * b (d - i)))
      = Finset.sum (Finset.range (na + nb - 1)) (fun d =>
        Finset.sum (Finset.range (d + 1)) (fun i => 2 ^ d * (a i * b (d - i)))) := by
    refine Finset.sum_congr rfl ?_
    intro d _
    rw [Finset.mul_sum]
  have stepD : Finset.sum (Finset.range (na + nb - 1)) (fun d =>
      Finset.sum (Finset.range (d + 1)) (fun i => 2 ^ d * (a i * b (d - i))))
      = Finset.sum (Finset.range (na + nb - 1)) (fun i =>
        Finset.sum (Finset.Ico i (na + nb - 1)) (fun d => 2 ^ d * (a i * b (d - i)))) := by
    rw [Finset.sum_sigma' (Finset.range (na + nb - 1)) (fun d => Finset.range (d + 1))
      (fun d i => 2 ^ d * (a i * b (d - i)))]
    rw [Finset.sum_sigma' (Finset.range (na + nb - 1))
      (fun i => Finset.Ico i (na + nb - 1))
      (fun i d => 2 ^ d * (a i * b (d - i)))]
    refine Finset.sum_nbij' (fun p => ⟨p.2, p.1⟩) (fun p => ⟨p.2, p.1⟩) ?_ ?_ ?_ ?_ ?_
    · intro p hp
      simp only [Finset.mem_sigma, Finset.mem_range] at hp
      simp only [Finset.mem_sigma, Finset.mem_range, Finset.mem_Ico]
      omega
    · intro p hp
      simp only [Finset.mem_sigma, Finset.mem_range, Finset.mem_Ico] at hp
      simp only [Finset.mem_sigma, Finset.mem_range]
      omega
    · intro p _; rfl
    · intro p _; rfl
    · intro p _; rfl
  have stepE : ∀ i, i < na → Finset.sum (Finset.Ico i (na + nb - 1))
      (fun d => 2 ^ d * (a i * b (d - i)))
      = a i * 2 ^ i * Finset.sum (Finset.range nb) (fun j => b j * 2 ^ j) := by
    intro i hi
    rw [Finset.sum_Ico_eq_sum_range (fun d => 2 ^ d * (a i * b (d - i))) i (na + nb - 1)]
    have hsub : Finset.sum (Finset.range (na + nb - 1 - i))
        (fun j => 2 ^ (i + j) * (a i * b (i + j - i)))
        = Finset.sum (Finset.range nb) (fun j => 2 ^ (i + j) * (a i * b (i + j - i))) := by
      refine (Finset.sum_subset ?_ ?_).symm
      · intro j hj
        simp only [Finset.mem_range] at hj
        simp only [Finset.mem_range]
        omega
      · intro j hj hnj
        simp only [Finset.mem_range] at hj
        simp only [Finset.mem_range, not_lt] at hnj
        rw [hbz (i + j - i) (by omega)]
        simp
    rw [hsub, Finset.mul_sum]
    refine Finset.sum_congr rfl ?_
    intro j _
    rw [show i + j - i = j by omega, pow_add]
    ring
  rw [Finset.sum_congr rfl (fun d (_ : d ∈ Finset.range (na + nb - 1)) =>
    by rw [stepAB d])]
  rw [stepC, stepD]
  have stepF : Finset.sum (Finset.range (na + nb - 1)) (fun i =>
      Finset.sum (Finset.Ico i (na + nb - 1)) (fun d => 2 ^ d * (a i * b (d - i))))
      = Finset.sum (Finset.range na) (fun i =>
        Finset.sum (Finset.Ico i (na + nb - 1)) (fun d => 2 ^ d * (a i * b (d - i)))) := by
    refine (Finset.sum_subset ?_ ?_).symm
    · intro i hi
      simp only [Finset.mem_range] at hi
      simp only [Finset.mem_range]
      omega
    · intro i hi hni
      simp only [Finset.mem_range] at hi
      simp only [Finset.mem_range, not_lt] at hni
      refine Finset.sum_eq_zero ?_
      intro d _
      rw [haz i hni]
      simp
  rw [stepF]
  rw [Finset.sum_congr rfl (fun i (hi : i ∈ Finset.range na) =>
    stepE i (Finset.mem_range.mp hi))]
  rw [Finset.sum_mul]

/-- C3: for all bit widths n, m ≥ 1, multiplier on wire lists encoding A and B
(LSB-first, A = bitsToNat va, B = bitsToNat vb) evaluates, as an LSB-first
unsigned integer, to exactly A×B; the partial-product loop builds n+m-1
diagonal columns, and the gates it appends come in triples: one fan-out
duplicate for a[i], one for b[j], then the AND of exactly those two
duplicates. -/
theorem c3_multiplier (C : Circuit) (env : Nat → Bool) (wa wb : List Nat)
    (va vb : List Bool)
    (ha : List.Forall₂ (fun w v => evalWire C env w = some v) wa va)
    (hb : List.Forall₂ (fun w v => evalWire C env w = some v) wb vb)
    (hna : 1 ≤ wa.length) (hnb : 1 ≤ wb.length) :
    bitsVal (multiplier C wa wb).1 env (multiplier C wa wb).2
      = some (bitsToNat va * bitsToNat vb) ∧
    (mulLoop ⟨C, wa, wb, List.replicate (wa.length + wb.length - 1) []⟩
      wa.length wb.length).land.length = wa.length + wb.length - 1 ∧
    DupTriples C.length
      ((mulLoop ⟨C, wa, wb, List.replicate (wa.length + wb.length - 1) []⟩
        wa.length wb.length).C.drop C.length) := by
  have hlena := ha.length_eq
  have hlenb := hb.length_eq
  have hN : wa.length + wb.length - 1 = va.length + vb.length - 1 := by omega
  have h0 : LoopVal env va vb C.length
      ⟨C, wa, wb, List.replicate (wa.length + wb.length - 1) []⟩ 0 := by
    refine ⟨ha, hb, ?_, ?_, Nat.le_refl _, ?_⟩
    · exact colsVal_replicate_nil C env _
    · simp [hN]
    · show DupTriples C.length (C.drop C.length)
      rw [List.drop_length]
      exact DupTriples.nil _
  have hml : mulLoop ⟨C, wa, wb, List.replicate (wa.length + wb.length - 1) []⟩
      wa.length wb.length
      = (List.range (va.length + vb.length - 1)).foldl
        (fun s d => (innerRange va.length vb.length d).foldl
          (fun s2 i => mulBody s2 d i) s)
        ⟨C, wa, wb, List.replicate (wa.length + wb.length - 1) []⟩ := by
    rw [mulLoop, hlena, hlenb]
  have hloop := outerFold_val (List.range (va.length + vb.length - 1))
    ⟨C, wa, wb, List.replicate (wa.length + wb.length - 1) []⟩ 0 h0
    (fun d hd => by simpa using hd)
  rw [← hml] at hloop
  obtain ⟨hfa, hfb, hfval, hflen, hfbase, hftrip⟩ := hloop
  rw [Nat.zero_add] at hfval
  have hfill : ∀ d, d < wa.length + wb.length - 1 →
      (mulLoop ⟨C, wa, wb, List.replicate (wa.length + wb.length - 1) []⟩
        wa.length wb.length).land.getD d [] ≠ [] := by
    intro d hd
    rw [mulLoop]
    refine outerFold_fills hna hnb _ _ ?_ d (Or.inl (by simpa using hd))
    intro e he
    simp only [List.mem_range] at he
    exact ⟨by simpa using he, he⟩
  have hne : ∀ col ∈ ((mulLoop ⟨C, wa, wb,
      List.replicate (wa.length + wb.length - 1) []⟩
        wa.length wb.length).land.map (List.map some)), col ≠ [] := by
    intro col hc
    obtain ⟨c, hcmem, rfl⟩ := List.mem_map.mp hc
    obtain ⟨d, hd, hcd⟩ := List.mem_iff_getElem.mp hcmem
    have hcne : c ≠ [] := by
      have hgd := hfill d (by rw [← hN] at hflen; omega)
      rw [List.getD_eq_getElem _ [] hd, hcd] at hgd
      exact hgd
    simpa using hcne
  have hmul : multiplier C wa wb =
      compress (mulLoop ⟨C, wa, wb, List.replicate (wa.length + wb.length - 1) []⟩
        wa.length wb.length).C
      ((mulLoop ⟨C, wa, wb, List.replicate (wa.length + wb.length - 1) []⟩
        wa.length wb.length).land.map (List.map some)) := by
    rw [multiplier]
  have hsum : ((List.range (va.length + vb.length - 1)).map
      (fun d => 2 ^ d * ((innerRange va.length vb.length d).map
        (fun i => (va.getD i false && vb.getD (d - i) false).toNat)).sum)).sum
      = bitsToNat va * bitsToNat vb := by
    rw [sum_map_range]
    rw [Finset.sum_congr rfl (fun d (_ : d ∈ Finset.range (va.length + vb.length - 1)) =>
      show 2 ^ d * ((innerRange va.length vb.length d).map
          (fun i => (va.getD i false && vb.getD (d - i) false).toNat)).sum
        = 2 ^ d * Finset.sum
            (Finset.range (min va.length (d + 1) - (d + 1 - vb.length)))
            (fun k => (va.getD ((d + 1 - vb.length) + k) false).toNat
              * (vb.getD (d - ((d + 1 - vb.length) + k)) false).toNat) by
        rw [innerRange, sum_map_range']
        congr 1
        refine Finset.sum_congr rfl ?_
        intro k _
        rw [bool_and_toNat])]
    rw [diag_sum_eq va.length vb.length (by omega) (by omega)
      (fun i => (va.getD i false).toNat) (fun j => (vb.getD j false).toNat)
      (fun i hi => by
        have h9 : va[i]? = none := List.getElem?_eq_none hi
        simp [List.getD, h9])
      (fun j hj => by
        have h9 : vb[j]? = none := List.getElem?_eq_none hj
        simp [List.getD, h9])]
    rw [← bitsToNat_eq_sum va, ← bitsToNat_eq_sum vb]
  refine ⟨?_, by rw [hflen, hN], hftrip⟩
  rw [hmul]
  rw [← hsum]
  exact compress_value env _ _ _ hne hfval

/-- Witness for C3: 2-bit × 2-bit with A = 3 (11) and B = 3 (11) gives 9. -/
theorem c3_multiplier_witness :
    bitsVal (multiplier [⟨"a0", []⟩, ⟨"a1", []⟩, ⟨"b0", []⟩, ⟨"b1", []⟩]
        [0, 1] [2, 3]).1 (fun _ => true)
      (multiplier [⟨"a0", []⟩, ⟨"a1", []⟩, ⟨"b0", []⟩, ⟨"b1", []⟩]
        [0, 1] [2, 3]).2 = some 9 := by
  have h := c3_multiplier [⟨"a0", []⟩, ⟨"a1", []⟩, ⟨"b0", []⟩, ⟨"b1", []⟩]
    (fun _ => true) [0, 1] [2, 3] [true, true] [true, true]
    (List.Forall₂.cons (by decide) (List.Forall₂.cons (by decide) List.Forall₂.nil))
    (List.Forall₂.cons (by decide) (List.Forall₂.cons (by decide) List.Forall₂.nil))
    (by decide) (by decide)
  simpa [bitsToNat] using h.1

theorem mulBodyStore_sim (x0 x1 la' lb' : List Nat) (C : Circuit)
    (land : List (List Nat)) (d i : Nat) :
    mulBodyStore 2 3 (C, [x0, x1, la', lb'], land) d i
      = ((mulBody ⟨C, la', lb', land⟩ d i).C,
         [x0, x1, (mulBody ⟨C, la', lb', land⟩ d i).la,
          (mulBody ⟨C, la', lb', land⟩ d i).lb],
         (mulBody ⟨C, la', lb', land⟩ d i).land) := by
  rfl

theorem storeFold_sim (na nb : Nat) (x0 x1 : List Nat) :
    ∀ (ds : List Nat) (C : Circuit) (la' lb' : List Nat) (land : List (List Nat)),
      ds.foldl (fun s d => (innerRange na nb d).foldl
          (fun s2 i => mulBodyStore 2 3 s2 d i) s) (C, [x0, x1, la', lb'], land)
      = ((ds.foldl (fun s d => (innerRange na nb d).foldl
            (fun s2 i => mulBody s2 d i) s) ⟨C, la', lb', land⟩ : MulSt).C,
         [x0, x1,
          (ds.foldl (fun s d => (innerRange na nb d).foldl
            (fun s2 i => mulBody s2 d i) s) ⟨C, la', lb', land⟩ : MulSt).la,
          (ds.foldl (fun s d => (innerRange na nb d).foldl
            (fun s2 i => mulBody s2 d i) s) ⟨C, la', lb', land⟩ : MulSt).lb],
         (ds.foldl (fun s d => (innerRange na nb d).foldl
            (fun s2 i => mulBody s2 d i) s) ⟨C, la', lb', land⟩ : MulSt).land) := by
  have hinner : ∀ (d : Nat) (l : List Nat) (C : Circuit) (la' lb' : List Nat)
      (land : List (List Nat)),
      l.foldl (fun s2 i => mulBodyStore 2 3 s2 d i) (C, [x0, x1, la', lb'], land)
      = ((l.foldl (fun s2 i => mulBody s2 d i) (⟨C, la', lb', land⟩ : MulSt)).C,
         [x0, x1, (l.foldl (fun s2 i => mulBody s2 d i) (⟨C, la', lb', land⟩ : MulSt)).la,
          (l.foldl (fun s2 i => mulBody s2 d i) (⟨C, la', lb', land⟩ : MulSt)).lb],
         (l.foldl (fun s2 i => mulBody s2 d i) (⟨C, la', lb', land⟩ : MulSt)).land) := by
    intro d l
    induction l with
    | nil => intro C la' lb' land; rfl
    | cons i t IH =>
      intro C la' lb' land
      simp only [List.foldl_cons, mulBodyStore_sim]
      exact IH _ _ _ _
  intro ds
  induction ds with
  | nil => intro C la' lb' land; rfl
  | cons d t IH =>
    intro C la' lb' land
    simp only [List.foldl_cons, hinner]
    exact IH _ _ _ _

/-- The store semantics and the value semantics of multiplier agree: running
multiplier through the store on references to the two operand arrays produces
the same circuit and output bits as the direct definition. -/
theorem multiplierStore_fst (C : Circuit) (a b : List Nat) :
    (multiplierStore C [a, b] 0 1).1 = multiplier C a b := by
  rw [multiplierStore, multiplier]
  simp only [List.getD_cons_zero, List.getD_cons_succ, List.length_cons,
    List.length_nil]
  rw [show ([a, b] : List (List Nat)) ++ [a, b] = [a, b, a, b] from rfl]
  rw [show (0 : Nat) + 1 + 1 = 2 from rfl]
  rw [storeFold_sim a.length b.length a b _ C a b _, mulLoop]
